import Mathlib

/-!
# keyydb: a shallow embedding of `keyy.go` and its verification

The store is a Go `map[string]*Var` that is written to one flat file
(`Sync`) and read back whole (`Open`).  The embedding follows `keyy.go`
function by function:

* a Go `byte` is a `Fin 256`; a Go `string` (keys, string values) is the list
  of its bytes; `uint32` arithmetic is arithmetic on `Nat` with an explicit
  `% 2 ^ 32`;
* a Go slice is its elements together with the spare capacity of its backing
  array: a slice expression `s[lo:hi]` is checked against the capacity, an
  index expression `s[i]` against the length;
* the map `db.Keys` is an association list; the order in which `range`
  visits it is not fixed by Go, so `Sync` receives the visiting order as an
  argument;
* a `float32`/`float64` is represented by its IEEE-754 bit pattern
  (`math.Float32bits` and `math.Float32frombits` are inverse bit casts);
* an operation ends in a normal return, a returned `error`, or a run-time
  panic.
-/

namespace Keyy

/-- A Go `byte`. -/
abbrev Byte := Fin 256

/-- A Go `string`, as the sequence of its bytes. -/
abbrev Key := List Byte

/-- The conversion `byte(x)` of an unsigned integer: the low eight bits. -/
def byte (x : Nat) : Byte := ⟨x % 256, Nat.mod_lt x (by decide)⟩

def TYPE_INT32 : Byte := 0
def TYPE_INT64 : Byte := 1
def TYPE_STRING : Byte := 2
def TYPE_FLOAT32 : Byte := 3
def TYPE_FLOAT64 : Byte := 4

def KEY_SIZE : Nat := 59
def KEY_MAX_KEY_SIZE : Nat := 50

/-- The `error` values the package returns.  `storage` is an error handed up
from the `os` package. -/
inductive KeyyError where
  /-- "KEY %s cannot be a 0 length string" -/
  | keyEmpty (key : Key)
  /-- "KEY %s cannot be more than 50 characters in length" -/
  | keyTooLong (key : Key)
  /-- "key doesn't exist" -/
  | keyMissing
  /-- "unsupported type" -/
  | unsupportedType
  /-- an error of `os.Create`, `f.Write` or `f.Close` -/
  | storage
  deriving DecidableEq, Repr

/-- How a call ends: a normal return, a returned `error`, a run-time panic
(index or slice bounds out of range), or `fuel` when the iteration budget of a
loop of the model is used up (`Open_ne_fuel`: it never is). -/
inductive Res (α : Type) where
  | ok (a : α)
  | error (e : KeyyError)
  | panic
  | fuel
  deriving DecidableEq, Repr

/-- Sequencing: the first abnormal end is the end of the whole. -/
def Res.bind {α β : Type} (x : Res α) (f : α → Res β) : Res β :=
  match x with
  | .ok a => f a
  | .error e => .error e
  | .panic => .panic
  | .fuel => .fuel

instance : Monad Res where
  pure := Res.ok
  bind := Res.bind

/-- The record of one key: `type Var struct { T uint8; R uint32; S uint32; V []byte }`.
`V = none` is the `nil` slice. -/
structure Var where
  T : Byte
  R : Nat
  S : Nat
  V : Option (List Byte)
  deriving DecidableEq, Repr

/-- The elements of `v.V`; a `nil` slice has none. -/
def Var.bytes (v : Var) : List Byte := v.V.getD []

/-- `type DB struct { Path string; Size int64; Keys map[string]*Var; KeysCount uint32 }`. -/
structure DB where
  Path : String
  Size : Nat
  Keys : List (Key × Var)
  KeysCount : Nat
  deriving DecidableEq, Repr

/-- The map read `m[key]`: `none` when the key is absent. -/
def mapGet : List (Key × Var) → Key → Option Var
  | [], _ => none
  | (k, v) :: rest, key => if k = key then some v else mapGet rest key

/-- The map write `m[key] = v`: replaces the entry of `key`, or adds one. -/
def mapSet : List (Key × Var) → Key → Var → List (Key × Var)
  | [], key, v => [(key, v)]
  | (k, w) :: rest, key, v =>
    if k = key then (key, v) :: rest else (k, w) :: mapSet rest key v

/-- A byte slice: its `len` elements, and the elements of the backing array
between `len` and `cap`. -/
structure Slice where
  elems : List Byte
  spare : List Byte
  deriving DecidableEq, Repr

/-- The slice expression `s[lo:hi]`: in range when `lo ≤ hi ≤ cap(s)`. -/
def Slice.slice (s : Slice) (lo hi : Nat) : Res (List Byte) :=
  if lo ≤ hi ∧ hi ≤ s.elems.length + s.spare.length then
    .ok (((s.elems ++ s.spare).drop lo).take (hi - lo))
  else .panic

/-- The index expression `s[i]`: in range when `i < len(s)`. -/
def Slice.index (s : Slice) (i : Nat) : Res Byte :=
  match s.elems[i]? with
  | some b => .ok b
  | none => .panic

/-- `binary.BigEndian.Uint32`: panics on fewer than four bytes. -/
def Uint32 (b : List Byte) : Res Nat :=
  match b with
  | b0 :: b1 :: b2 :: b3 :: _ =>
    .ok (b3.val + b2.val * 2 ^ 8 + b1.val * 2 ^ 16 + b0.val * 2 ^ 24)
  | _ => .panic

/-- `binary.BigEndian.Uint64`: panics on fewer than eight bytes. -/
def Uint64 (b : List Byte) : Res Nat :=
  match b with
  | b0 :: b1 :: b2 :: b3 :: b4 :: b5 :: b6 :: b7 :: _ =>
    .ok (b7.val + b6.val * 2 ^ 8 + b5.val * 2 ^ 16 + b4.val * 2 ^ 24 +
      b3.val * 2 ^ 32 + b2.val * 2 ^ 40 + b1.val * 2 ^ 48 + b0.val * 2 ^ 56)
  | _ => .panic

/-- `binary.BigEndian.PutUint32` into a fresh `make([]byte, 4)`. -/
def PutUint32 (v : Nat) : List Byte :=
  [byte (v / 2 ^ 24), byte (v / 2 ^ 16), byte (v / 2 ^ 8), byte v]

/-- `binary.BigEndian.PutUint64` into a fresh `make([]byte, 8)`. -/
def PutUint64 (v : Nat) : List Byte :=
  [byte (v / 2 ^ 56), byte (v / 2 ^ 48), byte (v / 2 ^ 40), byte (v / 2 ^ 32),
   byte (v / 2 ^ 24), byte (v / 2 ^ 16), byte (v / 2 ^ 8), byte v]

/-- `bytes.Trim(b, "\x00")`: zero bytes are cut from both ends. -/
def trimZero (b : List Byte) : List Byte :=
  (b.rdropWhile (fun x => x = 0)).dropWhile (fun x => x = 0)

/-- The dynamic value handed to `Set` and returned by `Get`.  An `int32` or
`int64` is its integer, a float is its bit pattern, `other` is a value of any
other dynamic type. -/
inductive Value where
  | int32 (v : Int)
  | int64 (v : Int)
  | float32 (bits : Nat)
  | float64 (bits : Nat)
  | string (s : List Byte)
  | other
  deriving DecidableEq, Repr

/-- The value is one of its Go type: the integer or bit pattern is in range. -/
def Value.InRange : Value → Prop
  | .int32 v => -(2 : Int) ^ 31 ≤ v ∧ v < 2 ^ 31
  | .int64 v => -(2 : Int) ^ 63 ≤ v ∧ v < 2 ^ 63
  | .float32 bits => bits < 2 ^ 32
  | .float64 bits => bits < 2 ^ 64
  | .string _ => True
  | .other => True

/-- The value has one of the five types `Set` knows. -/
def Value.Supported : Value → Prop
  | .other => False
  | _ => True

instance (v : Value) : Decidable v.InRange := by
  cases v <;> unfold Value.InRange <;> infer_instance

instance (v : Value) : Decidable v.Supported := by
  cases v <;> unfold Value.Supported <;> infer_instance

/-- The conversion `uint32(v)` of an `int32`. -/
def uint32OfInt (v : Int) : Nat := (v % 2 ^ 32).toNat

/-- The conversion `uint64(v)` of an `int64`. -/
def uint64OfInt (v : Int) : Nat := (v % 2 ^ 64).toNat

/-- The conversion `int32(u)` of a `uint32`. -/
def int32OfNat (u : Nat) : Int := if u < 2 ^ 31 then (u : Int) else (u : Int) - 2 ^ 32

/-- The conversion `int64(u)` of a `uint64`. -/
def int64OfNat (u : Nat) : Int := if u < 2 ^ 63 then (u : Int) else (u : Int) - 2 ^ 64

/-- One directory row of `Open`, read at address `i` (lines 64 to 106): the
key and the record that the row puts into the map. -/
def openRow (fileBytes : Slice) (refStart i : Nat) : Res (Key × Var) := do
  let keyBuf ← fileBytes.slice i ((i + 50) % 2 ^ 32)
  let key := trimZero keyBuf
  let varType ← fileBytes.index ((i + 50) % 2 ^ 32)
  let ref ← (fileBytes.slice ((i + 51) % 2 ^ 32) ((i + 55) % 2 ^ 32)) >>= Uint32
  let valueSize ← (fileBytes.slice ((i + 55) % 2 ^ 32) ((i + 59) % 2 ^ 32)) >>= Uint32
  let newVar : Var := { T := varType, R := ref, S := valueSize, V := none }
  let lo := (refStart + ref) % 2 ^ 32
  if varType = TYPE_INT32 then
    if valueSize ≠ 4 then pure (key, newVar)
    else do
      let v ← fileBytes.slice lo ((refStart + ref + 4) % 2 ^ 32)
      pure (key, { newVar with V := some v })
  else if varType = TYPE_INT64 then
    if valueSize ≠ 8 then pure (key, newVar)
    else do
      let v ← fileBytes.slice lo ((refStart + ref + 8) % 2 ^ 32)
      pure (key, { newVar with V := some v })
  else if varType = TYPE_STRING then do
    let v ← fileBytes.slice lo ((refStart + ref + valueSize) % 2 ^ 32)
    pure (key, { newVar with V := some v })
  else if varType = TYPE_FLOAT32 then
    if valueSize ≠ 4 then pure (key, newVar)
    else do
      let v ← fileBytes.slice lo ((refStart + ref + 4) % 2 ^ 32)
      pure (key, { newVar with V := some v })
  else if varType = TYPE_FLOAT64 then
    if valueSize ≠ 8 then pure (key, newVar)
    else do
      let v ← fileBytes.slice lo ((refStart + ref + 8) % 2 ^ 32)
      pure (key, { newVar with V := some v })
  else pure (key, newVar)

/-- The loop `for i := startAddress; i < endAddress; i += KEY_SIZE` of `Open`,
with `i` a `uint32`.  The counter runs through a cycle of `2 ^ 32` values, so
that many iterations are the budget. -/
def openLoop (fileBytes : Slice) (endAddress refStart : Nat) :
    Nat → Nat → List (Key × Var) → Res (List (Key × Var))
  | 0, _, _ => .fuel
  | budget + 1, i, keys =>
    if i < endAddress then do
      let (key, newVar) ← openRow fileBytes refStart i
      openLoop fileBytes endAddress refStart budget ((i + KEY_SIZE) % 2 ^ 32)
        (mapSet keys key newVar)
    else pure keys

/-- The function `Open`.  `fileBytes` is what `os.ReadFile` returned (the `nil`
slice when nothing was read), `readErr` and `createErr` say whether
`os.ReadFile` and the `os.Create` that follows a failed read returned an
error. -/
def Open (path : String) (fileBytes : Slice) (readErr createErr : Bool) : Res DB :=
  let newDB : DB := { Path := path, Size := 0, Keys := [], KeysCount := 0 }
  if readErr && createErr then .error .storage
  else
    let fileByteCount := fileBytes.elems.length
    if fileByteCount = 0 then .ok newDB
    else do
      let keysCount ← (fileBytes.slice 0 4) >>= Uint32
      let startAddress := 4
      let endAddress := (startAddress + (keysCount * KEY_SIZE) % 2 ^ 32) % 2 ^ 32
      let refStart := (4 + (keysCount * KEY_SIZE) % 2 ^ 32) % 2 ^ 32
      let keys ← openLoop fileBytes endAddress refStart (2 ^ 32) startAddress newDB.Keys
      pure { newDB with Size := fileByteCount, Keys := keys, KeysCount := keysCount }

/-- The `os` call of `Sync` that fails first, if any does. -/
inductive Stage where
  | create
  | writeHeader
  | writeKeys
  | writeValues
  | close
  deriving DecidableEq, Repr

/-- The `range db.Keys` loop of `Sync` over the entries in the order they are
visited; `keys`, `values` and `valuesLen` are the loop's three variables. -/
def syncLoop : List (Key × Var) → List Byte → List Byte → Nat → Res (List Byte × List Byte)
  | [], keys, values, _ => .ok (keys, values)
  | (key, value) :: rest, keys, values, valuesLen =>
    let keyLength := key.length
    if keyLength = 0 then .error (.keyEmpty key)
    else if keyLength > 0 ∧ keyLength ≤ 50 then
      let keyBytes := key ++
        (if keyLength < 50 then List.replicate (KEY_MAX_KEY_SIZE - keyLength) (0 : Byte) else [])
      let keyBytes := keyBytes ++ [value.T]
      let keyBytes := keyBytes ++ PutUint32 valuesLen
      let keyBytes := keyBytes ++ PutUint32 value.S
      let keys := keys ++ keyBytes
      let values := values ++ value.bytes
      let valuesLen :=
        if value.T = TYPE_INT32 then (valuesLen + 4) % 2 ^ 32
        else if value.T = TYPE_INT64 then (valuesLen + 8) % 2 ^ 32
        else if value.T = TYPE_FLOAT32 then (valuesLen + 4) % 2 ^ 32
        else if value.T = TYPE_FLOAT64 then (valuesLen + 8) % 2 ^ 32
        else if value.T = TYPE_STRING then (valuesLen + value.bytes.length % 2 ^ 32) % 2 ^ 32
        else valuesLen
      syncLoop rest keys values valuesLen
    else .error (.keyTooLong key)

/-- The method `Sync`.  `order` is the order in which `range db.Keys` visits
the entries, `failAt` the `os` call that fails, if any.  On a normal return
the result is the content of the file. -/
def DB.Sync (db : DB) (order : List (Key × Var)) (failAt : Option Stage) : Res (List Byte) :=
  if failAt = some .create then .error .storage
  else
    let keysCount := db.Keys.length % 2 ^ 32
    let keyCountHeader := PutUint32 keysCount
    match syncLoop order [] [] 0 with
    | .ok (keys, values) =>
      if failAt = some .writeHeader then .error .storage
      else if failAt = some .writeKeys then .error .storage
      else if failAt = some .writeValues then .error .storage
      else if failAt = some .close then .error .storage
      else .ok (keyCountHeader ++ keys ++ values)
    | .error e => .error e
    | .panic => .panic
    | .fuel => .fuel

/-- The type switch of `Set`: type tag, size and buffer of a value.  A value
of another type leaves the three variables at their zero values. -/
def encodeValue : Value → Byte × Nat × Option (List Byte)
  | .int32 v => (TYPE_INT32, 4, some (PutUint32 (uint32OfInt v)))
  | .int64 v => (TYPE_INT64, 8, some (PutUint64 (uint64OfInt v)))
  | .float32 bits => (TYPE_FLOAT32, 4, some (PutUint32 bits))
  | .float64 bits => (TYPE_FLOAT64, 8, some (PutUint64 bits))
  | .string s => (TYPE_STRING, s.length % 2 ^ 32, some s)
  | .other => (0, 0, none)

/-- The method `Set`: the store after the call, and the returned `error`
(`none` is `nil`). -/
def DB.Set (db : DB) (key : Key) (value : Value) : DB × Option KeyyError :=
  let (valueType, valueSize, valueBuf) := encodeValue value
  match mapGet db.Keys key with
  | some k =>
    let newVar : Var := { k with T := valueType, R := 0, S := valueSize, V := valueBuf }
    ({ db with Keys := mapSet db.Keys key newVar }, none)
  | none =>
    let newVar : Var := { T := valueType, R := 0, S := valueSize, V := valueBuf }
    ({ db with Keys := mapSet db.Keys key newVar }, none)

/-- The method `Get`: the store after the call, and what is returned. -/
def DB.Get (db : DB) (key : Key) : DB × Res Value :=
  match mapGet db.Keys key with
  | none => (db, .error .keyMissing)
  | some v =>
    if v.T = TYPE_INT32 then (db, (Uint32 v.bytes) >>= fun u => pure (.int32 (int32OfNat u)))
    else if v.T = TYPE_INT64 then (db, (Uint64 v.bytes) >>= fun u => pure (.int64 (int64OfNat u)))
    else if v.T = TYPE_FLOAT32 then (db, (Uint32 v.bytes) >>= fun u => pure (.float32 u))
    else if v.T = TYPE_FLOAT64 then (db, (Uint64 v.bytes) >>= fun u => pure (.float64 u))
    else if v.T = TYPE_STRING then (db, .ok (.string v.bytes))
    else (db, .error .unsupportedType)

/-- The store that `Open` returns for a path with no file or an empty file. -/
def emptyDB (path : String) : DB := { Path := path, Size := 0, Keys := [], KeysCount := 0 }

/-- The store after a sequence of `Set` calls, first call first. -/
def setAll (db : DB) (calls : List (Key × Value)) : DB :=
  calls.foldl (fun d c => (d.Set c.1 c.2).1) db

/-- The value of the last call in `calls` that set `key`. -/
def lastSet : List (Key × Value) → Key → Option Value
  | [], _ => none
  | (k, v) :: rest, key =>
    match lastSet rest key with
    | some w => some w
    | none => if k = key then some v else none

/-! ## The file format, as the specification words it -/

/-- The key field of a directory row: the key, right-padded with zero bytes to
50 bytes. -/
def padKey (key : Key) : List Byte := key ++ List.replicate (50 - key.length) (0 : Byte)

/-- One directory row: key field, type tag, big-endian offset, big-endian
size. -/
def layoutRow (key : Key) (tag : Byte) (offset size : Nat) : List Byte :=
  padKey key ++ [tag] ++ PutUint32 offset ++ PutUint32 size

/-- The directory of the entries `e1..eN` in the order given: the offset of a
row is the sum of the sizes of the entries before it, the size of an entry is
the number of bytes of its raw value. -/
def layoutRows : List (Key × Var) → Nat → List Byte
  | [], _ => []
  | e :: es, offset =>
    layoutRow e.1 e.2.T offset e.2.bytes.length ++ layoutRows es (offset + e.2.bytes.length)

/-- The value region: the raw values, in the order of the entries. -/
def layoutValues : List (Key × Var) → List Byte
  | [] => []
  | e :: es => e.2.bytes ++ layoutValues es

/-- The sum of the sizes of the entries. -/
def totalSize : List (Key × Var) → Nat
  | [] => 0
  | e :: es => e.2.bytes.length + totalSize es

/-- The record that `Set` writes for a value. -/
def recordOf (v : Value) : Var :=
  { T := (encodeValue v).1, R := 0, S := (encodeValue v).2.1, V := (encodeValue v).2.2 }

/-- The record was written by `Set` with a value of a supported type. -/
def WrittenBySet (x : Var) : Prop := ∃ v : Value, v.Supported ∧ x = recordOf v

/-- The key can be written to a directory row: 1 to 50 bytes. -/
def KeyFits (key : Key) : Prop := 1 ≤ key.length ∧ key.length ≤ 50

instance (key : Key) : Decidable (KeyFits key) := by
  unfold KeyFits; infer_instance

/-- The `n` bytes of `b` from position `p` on. -/
def fieldAt (b : List Byte) (p n : Nat) : List Byte := (b.drop p).take n

/-- The byte of `b` at position `p`. -/
def tagAt (b : List Byte) (p : Nat) : Byte := b.getD p 0

/-- The big-endian 32-bit number in the four bytes of `b` from position `p`. -/
def numAt (b : List Byte) (p : Nat) : Nat :=
  (tagAt b (p + 3)).val + (tagAt b (p + 2)).val * 2 ^ 8 + (tagAt b (p + 1)).val * 2 ^ 16 +
    (tagAt b p).val * 2 ^ 24

/-- The address of directory row `j`. -/
def rowAddr (j : Nat) : Nat := 4 + 59 * j

/-- The key of the directory row at address `i`. -/
def rowKey (b : List Byte) (i : Nat) : Key := trimZero (fieldAt b i 50)

/-- The tag is String, or a fixed-width tag with the size of its width. -/
def Sliced (tag : Byte) (size : Nat) : Prop :=
  tag = TYPE_STRING ∨ ((tag = TYPE_INT32 ∨ tag = TYPE_FLOAT32) ∧ size = 4) ∨
    ((tag = TYPE_INT64 ∨ tag = TYPE_FLOAT64) ∧ size = 8)

instance (tag : Byte) (size : Nat) : Decidable (Sliced tag size) := by
  unfold Sliced; infer_instance

/-- The record of the directory row at address `i`, with the value region
starting at `refStart`: tag, offset and size of the row, and the bytes of the
row's range as raw value when the row is sliced. -/
def rowVar (b : List Byte) (refStart i : Nat) : Var :=
  { T := tagAt b (i + 50), R := numAt b (i + 51), S := numAt b (i + 55),
    V := if Sliced (tagAt b (i + 50)) (numAt b (i + 55)) then
        some (fieldAt b (refStart + numAt b (i + 51)) (numAt b (i + 55)))
      else none }

/-- The map after the directory rows `0..n-1` of `b` were registered in
order. -/
def loadedKeys (b : List Byte) (refStart : Nat) : Nat → List (Key × Var)
  | 0 => []
  | n + 1 =>
    mapSet (loadedKeys b refStart n) (rowKey b (rowAddr n)) (rowVar b refStart (rowAddr n))

/-! ## Predicates and sample data of the theorems -/

/-- What the loop of `Sync` relies on in a record: the step of the running
offset is the number of bytes of the raw value, modulo `2 ^ 32`, and so is the
size field. -/
def Var.Sound (x : Var) : Prop :=
  ((x.T = TYPE_INT32 ∨ x.T = TYPE_FLOAT32) → x.bytes.length = 4) ∧
  ((x.T = TYPE_INT64 ∨ x.T = TYPE_FLOAT64) → x.bytes.length = 8) ∧
  (x.T = TYPE_INT32 ∨ x.T = TYPE_INT64 ∨ x.T = TYPE_STRING ∨ x.T = TYPE_FLOAT32 ∨
    x.T = TYPE_FLOAT64) ∧
  x.S % 2 ^ 32 = x.bytes.length % 2 ^ 32

/-- The file that `Sync` writes for the entries in the order given. -/
def fileOf (es : List (Key × Var)) : List Byte :=
  PutUint32 es.length ++ layoutRows es 0 ++ layoutValues es

/-- The key neither begins nor ends with a zero byte. -/
def NoEdgeZero (key : Key) : Prop := key.head? ≠ some 0 ∧ key.getLast? ≠ some 0

instance (key : Key) : Decidable (NoEdgeZero key) := by
  unfold NoEdgeZero; infer_instance

/-- The `Set` calls of `TestKeyy_FullTest`: "test-string", "test-int32",
"test-int64", "test-float32" and "test-float64", the floats `42.42` and
`666.666` as their bit patterns. -/
def fullTestCalls : List (Key × Value) :=
  [([116, 101, 115, 116, 45, 115, 116, 114, 105, 110, 103], .string [74, 101, 115, 115, 101]),
   ([116, 101, 115, 116, 45, 105, 110, 116, 51, 50], .int32 10),
   ([116, 101, 115, 116, 45, 105, 110, 116, 54, 52], .int64 666),
   ([116, 101, 115, 116, 45, 102, 108, 111, 97, 116, 51, 50], .float32 1110027796),
   ([116, 101, 115, 116, 45, 102, 108, 111, 97, 116, 54, 52], .float64 4649075271969724695)]

/-- The two's-complement of a signed integer of the given width, as an
unsigned number. -/
def twosComplement (width : Nat) (v : Int) : Nat :=
  (if 0 ≤ v then v else v + 2 ^ width).toNat

/-- The `n` low bytes of a number, most significant byte first. -/
def bigEndian : Nat → Nat → List Byte
  | 0, _ => []
  | n + 1, v => byte (v / 256 ^ n) :: bigEndian n v

/-- The encoding table of the specification: type tag, size and bytes of a
value of a supported type. -/
def specEncode : Value → Option (Byte × Nat × List Byte)
  | .int32 v => some (0, 4, bigEndian 4 (twosComplement 32 v))
  | .int64 v => some (1, 8, bigEndian 8 (twosComplement 64 v))
  | .string s => some (2, s.length, s)
  | .float32 bits => some (3, 4, bigEndian 4 bits)
  | .float64 bits => some (4, 8, bigEndian 8 bits)
  | .other => none

/-- A file of `2 ^ 32 + 13` bytes with header count 72796056: row 0 has the
key `01`, tag String, offset 0 and size 1, the other 72796055 rows are zero
bytes, and the value region is the one byte `07`. -/
def wrapFile : List Byte :=
  ([4, 86, 199, 152] ++ layoutRow [1] TYPE_STRING 0 1) ++
    (List.replicate (59 * 72796055) (0 : Byte) ++ [7])

/-- A file with one directory row, key "k", tag String, offset 0 and size 2,
and the two value bytes "hi". -/
def sampleFile : List Byte :=
  [0, 0, 0, 1] ++ layoutRow [107] TYPE_STRING 0 2 ++ [104, 105]

/-- The size invariant of a record: a raw value that is present has exactly
`S` bytes, and `S` is 4 under the tags Int32 and Float32 and 8 under the tags
Int64 and Float64. -/
def Var.SizeOk (x : Var) : Prop :=
  ∀ v, x.V = some v →
    v.length = x.S ∧ ((x.T = TYPE_INT32 ∨ x.T = TYPE_FLOAT32) → x.S = 4) ∧
      ((x.T = TYPE_INT64 ∨ x.T = TYPE_FLOAT64) → x.S = 8)

/-- The tag is a fixed-width tag and the size is not its width. -/
def Mismatched (tag : Byte) (size : Nat) : Prop :=
  ((tag = TYPE_INT32 ∨ tag = TYPE_FLOAT32) ∧ size ≠ 4) ∨
    ((tag = TYPE_INT64 ∨ tag = TYPE_FLOAT64) ∧ size ≠ 8)

instance (tag : Byte) (size : Nat) : Decidable (Mismatched tag size) := by
  unfold Mismatched; infer_instance

/-- The byte sequences `b` and `c` have the same length and the same bytes
before position `lo` and from position `hi` on. -/
def SameOutside (b c : List Byte) (lo hi : Nat) : Prop :=
  b.length = c.length ∧ b.take lo = c.take lo ∧ b.drop hi = c.drop hi

/-- A file with one directory row, key "k", tag Int32, offset 9 and size 2,
and two value bytes. -/
def mismatchFile : List Byte :=
  [0, 0, 0, 1] ++ layoutRow [107] TYPE_INT32 9 2 ++ [104, 105]

/-- A file of `2 ^ 32 + 12` bytes with header count 72796056 and no value
bytes: row 0 has the key `02`, tag String, offset 0 and size 0, row 1 has the
key `01`, tag Int32, offset 0 and size 0, and the other 72796054 rows are zero
bytes. -/
def wrapMismatchFile : List Byte :=
  ([4, 86, 199, 152] ++ layoutRow [2] TYPE_STRING 0 0) ++
    (layoutRow [1] TYPE_INT32 0 0 ++ (List.replicate (59 * 72796054) (0 : Byte) ++ []))

/-- What a load is compared by: type tag, size and raw value of a record. -/
def Var.content (x : Var) : Byte × Nat × Option (List Byte) := (x.T, x.S, x.V)

/-- The store after `Set("a", int32(1))` and `Set("a\x00", int32(2))`. -/
def zeroTailStore : DB :=
  setAll (emptyDB "db") [([97], Value.int32 1), ([97, 0], Value.int32 2)]

instance (x : Var) : Decidable x.Sound := by
  unfold Var.Sound; infer_instance

/-- The store after `Set("a", int32(1))` and `Set("b", "h")`. -/
def twoKeyStore : DB :=
  setAll (emptyDB "db") [([97], Value.int32 1), ([98], Value.string [104])]

/-- A file of `2 ^ 32 + 1` bytes with one directory row, key "k", tag String,
offset `2 ^ 32 - 64` and size 2, and a value region of zero bytes: the row's
range is the last two bytes of the file, at the addresses `2 ^ 32 - 1` and
`2 ^ 32`. -/
def straddleFile : List Byte :=
  ([0, 0, 0, 1] ++ layoutRow [107] TYPE_STRING 4294967232 2) ++
    (List.replicate 4294967234 (0 : Byte) ++ [])

/-! ## Codec and map lemmas -/

@[simp] theorem Res.ok_bind {α β : Type} (a : α) (f : α → Res β) : (Res.ok a >>= f) = f a := rfl
@[simp] theorem Res.pure_eq {α : Type} (a : α) : (pure a : Res α) = Res.ok a := rfl
@[simp] theorem Res.panic_bind {α β : Type} (f : α → Res β) : ((Res.panic : Res α) >>= f) = Res.panic := rfl

theorem Uint32_PutUint32 (v : Nat) : Uint32 (PutUint32 v) = .ok (v % 2 ^ 32) := by
  simp only [Uint32, PutUint32, byte, Res.ok.injEq]
  omega

theorem Uint64_PutUint64 (v : Nat) : Uint64 (PutUint64 v) = .ok (v % 2 ^ 64) := by
  simp only [Uint64, PutUint64, byte, Res.ok.injEq]
  omega

theorem PutUint32_mod (v : Nat) : PutUint32 (v % 2 ^ 32) = PutUint32 v := by
  simp only [PutUint32, byte]
  have e1 : v % 2 ^ 32 / 2 ^ 24 % 256 = v / 2 ^ 24 % 256 := by omega
  have e2 : v % 2 ^ 32 / 2 ^ 16 % 256 = v / 2 ^ 16 % 256 := by omega
  have e3 : v % 2 ^ 32 / 2 ^ 8 % 256 = v / 2 ^ 8 % 256 := by omega
  have e4 : v % 2 ^ 32 % 256 = v % 256 := by omega
  simp only [e1, e2, e3, e4]

theorem int32_cast_roundtrip (v : Int) (h1 : -(2 : Int) ^ 31 ≤ v) (h2 : v < 2 ^ 31) :
    int32OfNat (uint32OfInt v % 4294967296) = v := by
  unfold int32OfNat uint32OfInt
  split <;> omega

theorem int64_cast_roundtrip (v : Int) (h1 : -(2 : Int) ^ 63 ≤ v) (h2 : v < 2 ^ 63) :
    int64OfNat (uint64OfInt v % 18446744073709551616) = v := by
  unfold int64OfNat uint64OfInt
  split <;> omega

theorem mapGet_mapSet_self (m : List (Key × Var)) (k : Key) (v : Var) :
    mapGet (mapSet m k v) k = some v := by
  induction m with
  | nil => simp [mapSet, mapGet]
  | cons e m ih =>
    obtain ⟨k0, w⟩ := e
    by_cases h : k0 = k
    · simp [mapSet, mapGet, h]
    · simp [mapSet, mapGet, h, ih]

theorem mapGet_mapSet_ne (m : List (Key × Var)) (k k' : Key) (v : Var) (hne : k ≠ k') :
    mapGet (mapSet m k v) k' = mapGet m k' := by
  induction m with
  | nil => simp [mapSet, mapGet, hne]
  | cons e m ih =>
    obtain ⟨k0, w⟩ := e
    by_cases h : k0 = k
    · subst h; simp [mapSet, mapGet, hne]
    · by_cases h' : k0 = k'
      · subst h'; simp [mapSet, mapGet, h]
      · simp [mapSet, mapGet, h, h', ih]

theorem Set_Keys (db : DB) (key : Key) (value : Value) :
    (db.Set key value).1.Keys = mapSet db.Keys key
      { T := (encodeValue value).1, R := 0, S := (encodeValue value).2.1,
        V := (encodeValue value).2.2 } := by
  unfold DB.Set
  cases h : mapGet db.Keys key <;> simp

theorem Get_Set (db : DB) (key : Key) (v : Value) (hs : v.Supported) (hr : v.InRange) :
    ((db.Set key v).1.Get key).2 = .ok v := by
  unfold DB.Get
  rw [Set_Keys, mapGet_mapSet_self]
  cases v with
  | int32 x =>
    simp only [Value.InRange] at hr
    simp [encodeValue, Var.bytes, TYPE_INT32, Uint32_PutUint32, int32_cast_roundtrip x hr.1 hr.2]
  | int64 x =>
    simp only [Value.InRange] at hr
    simp [encodeValue, Var.bytes, TYPE_INT32, TYPE_INT64, Uint64_PutUint64, int64_cast_roundtrip x hr.1 hr.2]
  | float32 x =>
    simp only [Value.InRange] at hr
    simp [encodeValue, Var.bytes, TYPE_INT32, TYPE_INT64, TYPE_FLOAT32, Uint32_PutUint32]
    omega
  | float64 x =>
    simp only [Value.InRange] at hr
    simp [encodeValue, Var.bytes, TYPE_INT32, TYPE_INT64, TYPE_FLOAT32, TYPE_FLOAT64, Uint64_PutUint64]
    omega
  | string s =>
    simp [encodeValue, Var.bytes, TYPE_INT32, TYPE_INT64, TYPE_FLOAT32, TYPE_FLOAT64, TYPE_STRING]
  | other => exact absurd hs (by simp [Value.Supported])

/-! ## What `Sync` writes -/

theorem Sound_of_WrittenBySet (x : Var) (h : WrittenBySet x) : x.Sound := by
  obtain ⟨v, hs, rfl⟩ := h
  cases v <;>
    simp [Value.Supported] at hs <;>
    simp [Var.Sound, recordOf, encodeValue, Var.bytes, PutUint32, PutUint64, TYPE_INT32,
      TYPE_INT64, TYPE_STRING, TYPE_FLOAT32, TYPE_FLOAT64]

theorem PutUint32_congr (a b : Nat) (h : a % 2 ^ 32 = b % 2 ^ 32) : PutUint32 a = PutUint32 b := by
  rw [← PutUint32_mod a, ← PutUint32_mod b, h]

theorem syncLoop_layout (es : List (Key × Var)) :
    ∀ (keys values : List Byte) (off : Nat),
    (∀ e ∈ es, KeyFits e.1) → (∀ e ∈ es, e.2.Sound) →
    syncLoop es keys values (off % 2 ^ 32) =
      .ok (keys ++ layoutRows es off, values ++ layoutValues es) := by
  induction es with
  | nil => intro keys values off _ _; simp [syncLoop, layoutRows, layoutValues]
  | cons e es ih =>
    intro keys values off hk hs
    obtain ⟨key, x⟩ := e
    have hkey : KeyFits key := hk (key, x) (List.mem_cons_self _ _)
    have hx : x.Sound := hs (key, x) (List.mem_cons_self _ _)
    obtain ⟨h4, h8, htag, hS⟩ := hx
    unfold KeyFits at hkey
    have hne : key.length ≠ 0 := by omega
    have hpad : (if key.length < 50 then List.replicate (KEY_MAX_KEY_SIZE - key.length) (0 : Byte)
        else []) = List.replicate (50 - key.length) (0 : Byte) := by
      by_cases h : key.length < 50
      · simp [h, KEY_MAX_KEY_SIZE]
      · have : 50 - key.length = 0 := by omega
        simp [h, this]
    have hstep : (if x.T = TYPE_INT32 then (off % 2 ^ 32 + 4) % 2 ^ 32
        else if x.T = TYPE_INT64 then (off % 2 ^ 32 + 8) % 2 ^ 32
        else if x.T = TYPE_FLOAT32 then (off % 2 ^ 32 + 4) % 2 ^ 32
        else if x.T = TYPE_FLOAT64 then (off % 2 ^ 32 + 8) % 2 ^ 32
        else if x.T = TYPE_STRING then (off % 2 ^ 32 + x.bytes.length % 2 ^ 32) % 2 ^ 32
        else off % 2 ^ 32) = (off + x.bytes.length) % 2 ^ 32 := by
      by_cases c0 : x.T = TYPE_INT32
      · rw [if_pos c0, h4 (Or.inl c0)]; omega
      · rw [if_neg c0]
        by_cases c1 : x.T = TYPE_INT64
        · rw [if_pos c1, h8 (Or.inl c1)]; omega
        · rw [if_neg c1]
          by_cases c3 : x.T = TYPE_FLOAT32
          · rw [if_pos c3, h4 (Or.inr c3)]; omega
          · rw [if_neg c3]
            by_cases c4 : x.T = TYPE_FLOAT64
            · rw [if_pos c4, h8 (Or.inr c4)]; omega
            · rw [if_neg c4]
              have c2 : x.T = TYPE_STRING := by tauto
              rw [if_pos c2]; omega
    have hrest := ih (keys ++ layoutRow key x.T off x.bytes.length) (values ++ x.bytes)
      (off + x.bytes.length) (fun e he => hk e (List.mem_cons_of_mem _ he))
      (fun e he => hs e (List.mem_cons_of_mem _ he))
    unfold syncLoop
    simp only [hne, if_false, hkey.2, and_true, Nat.pos_of_ne_zero hne, if_true, hpad, hstep]
    rw [PutUint32_mod, PutUint32_congr x.S x.bytes.length hS]
    simp only [layoutRow, padKey, layoutRows, layoutValues, List.append_assoc] at hrest ⊢
    exact hrest

theorem layoutRow_length (key : Key) (tag : Byte) (offset size : Nat) (h : key.length ≤ 50) :
    (layoutRow key tag offset size).length = 59 := by
  simp [layoutRow, padKey, PutUint32]
  omega

theorem layoutRows_length (es : List (Key × Var)) :
    ∀ off, (∀ e ∈ es, KeyFits e.1) → (layoutRows es off).length = 59 * es.length := by
  induction es with
  | nil => intro off _; simp [layoutRows]
  | cons e es ih =>
    intro off hk
    have h1 := layoutRow_length e.1 e.2.T off e.2.bytes.length (hk e (List.mem_cons_self _ _)).2
    have h2 := ih (off + e.2.bytes.length) (fun e he => hk e (List.mem_cons_of_mem _ he))
    simp only [layoutRows, List.length_append, List.length_cons, h1, h2]
    omega

theorem layoutValues_length (es : List (Key × Var)) :
    (layoutValues es).length = totalSize es := by
  induction es with
  | nil => simp [layoutValues, totalSize]
  | cons e es ih => simp [layoutValues, totalSize, ih]

theorem Sync_eq_layout (db : DB) (order : List (Key × Var)) (hlen : order.length = db.Keys.length)
    (hk : ∀ e ∈ order, KeyFits e.1) (hs : ∀ e ∈ order, e.2.Sound) :
    db.Sync order none =
      .ok (PutUint32 order.length ++ layoutRows order 0 ++ layoutValues order) := by
  have h := syncLoop_layout order [] [] 0 hk hs
  simp only [Nat.zero_mod, List.nil_append] at h
  unfold DB.Sync
  simp only [h, PutUint32_mod, hlen]
  simp

/-! ## What `Open` reads -/

theorem Slice.slice_inside (s : Slice) (lo hi : Nat) (h1 : lo ≤ hi) (h2 : hi ≤ s.elems.length) :
    s.slice lo hi = .ok (fieldAt s.elems lo (hi - lo)) := by
  unfold Slice.slice fieldAt
  rw [if_pos ⟨h1, by omega⟩, List.drop_append_of_le_length (by omega),
    List.take_append_of_le_length (by rw [List.length_drop]; omega)]

theorem Slice.index_inside (s : Slice) (i : Nat) (h : i < s.elems.length) :
    s.index i = .ok (tagAt s.elems i) := by
  unfold Slice.index tagAt
  simp [List.getD_eq_getElem?_getD, List.getElem?_eq_getElem h]

theorem fieldAt_four (b : List Byte) (p : Nat) (h : p + 4 ≤ b.length) :
    fieldAt b p 4 = [tagAt b p, tagAt b (p + 1), tagAt b (p + 2), tagAt b (p + 3)] := by
  unfold fieldAt tagAt
  rw [List.drop_eq_getElem_cons (by omega : p < b.length),
    List.drop_eq_getElem_cons (by omega : p + 1 < b.length),
    List.drop_eq_getElem_cons (by omega : p + 1 + 1 < b.length),
    List.drop_eq_getElem_cons (by omega : p + 1 + 1 + 1 < b.length)]
  have e0 : b.getD p 0 = b[p] := by
    simp [List.getD_eq_getElem?_getD, List.getElem?_eq_getElem (by omega : p < b.length)]
  have e1 : b.getD (p + 1) 0 = b[p + 1] := by
    simp [List.getD_eq_getElem?_getD, List.getElem?_eq_getElem (by omega : p + 1 < b.length)]
  have e2 : b.getD (p + 2) 0 = b[p + 2] := by
    simp [List.getD_eq_getElem?_getD, List.getElem?_eq_getElem (by omega : p + 2 < b.length)]
  have e3 : b.getD (p + 3) 0 = b[p + 3] := by
    simp [List.getD_eq_getElem?_getD, List.getElem?_eq_getElem (by omega : p + 3 < b.length)]
  rw [e0, e1, e2, e3]
  rfl

theorem Uint32_fieldAt (b : List Byte) (p : Nat) (h : p + 4 ≤ b.length) :
    Uint32 (fieldAt b p 4) = .ok (numAt b p) := by
  rw [fieldAt_four b p h]
  simp [Uint32, numAt]

theorem openRow_eq (b spare : List Byte) (refStart i : Nat) (hi : i + 59 ≤ b.length)
    (hi32 : i + 59 < 2 ^ 32)
    (hr : refStart + numAt b (i + 51) + numAt b (i + 55) ≤ b.length)
    (hr32 : refStart + numAt b (i + 51) + numAt b (i + 55) < 2 ^ 32) :
    openRow ⟨b, spare⟩ refStart i = .ok (rowKey b i, rowVar b refStart i) := by
  have m50 : (i + 50) % 2 ^ 32 = i + 50 := Nat.mod_eq_of_lt (by omega)
  have m51 : (i + 51) % 2 ^ 32 = i + 51 := Nat.mod_eq_of_lt (by omega)
  have m55 : (i + 55) % 2 ^ 32 = i + 55 := Nat.mod_eq_of_lt (by omega)
  have m59 : (i + 59) % 2 ^ 32 = i + 59 := Nat.mod_eq_of_lt (by omega)
  have s1 := Slice.slice_inside ⟨b, spare⟩ i (i + 50) (by omega) (by simp only; omega)
  have s2 := Slice.index_inside ⟨b, spare⟩ (i + 50) (by simp only; omega)
  have s3 := Slice.slice_inside ⟨b, spare⟩ (i + 51) (i + 55) (by omega) (by simp only; omega)
  have s4 := Slice.slice_inside ⟨b, spare⟩ (i + 55) (i + 59) (by omega) (by simp only; omega)
  have e3 : i + 55 - (i + 51) = 4 := by omega
  have e4 : i + 59 - (i + 55) = 4 := by omega
  have e1 : i + 50 - i = 50 := by omega
  set R := numAt b (i + 51) with hR
  set S := numAt b (i + 55) with hS
  have mlo : (refStart + R) % 2 ^ 32 = refStart + R := Nat.mod_eq_of_lt (by omega)
  have mhi : (refStart + R + S) % 4294967296 = refStart + R + S := by omega
  have s5 := Slice.slice_inside ⟨b, spare⟩ (refStart + R) (refStart + R + S) (by omega)
    (by simp only; omega)
  have e5 : refStart + R + S - (refStart + R) = S := by omega
  simp only [e5] at s5
  unfold openRow
  simp only [m50, m51, m55, m59, s1, s2, s3, s4, e1, e3, e4, Res.ok_bind,
    Uint32_fieldAt b (i + 51) (by omega), Uint32_fieldAt b (i + 55) (by omega), ← hR, ← hS, mlo]
  unfold rowVar rowKey Sliced
  simp only [← hR, ← hS]
  have t4 : S = 4 → (Slice.mk b spare).slice (refStart + R) ((refStart + R + 4) % 4294967296) =
      .ok (fieldAt b (refStart + R) S) := by
    intro c; rw [c] at s5 mhi; rw [mhi, c]; exact s5
  have t8 : S = 8 → (Slice.mk b spare).slice (refStart + R) ((refStart + R + 8) % 4294967296) =
      .ok (fieldAt b (refStart + R) S) := by
    intro c; rw [c] at s5 mhi; rw [mhi, c]; exact s5
  have ts : (Slice.mk b spare).slice (refStart + R) ((refStart + R + S) % 4294967296) =
      .ok (fieldAt b (refStart + R) S) := by
    rw [mhi]; exact s5
  by_cases c0 : tagAt b (i + 50) = TYPE_INT32
  · rw [if_pos c0]
    by_cases c : S = 4
    · simp [c0, t4 c, c, TYPE_INT32, TYPE_STRING]
    · simp [c0, c, TYPE_INT32, TYPE_STRING, TYPE_INT64, TYPE_FLOAT64]
  · rw [if_neg c0]
    by_cases c1 : tagAt b (i + 50) = TYPE_INT64
    · rw [if_pos c1]
      by_cases c : S = 8
      · simp [c1, t8 c, c, TYPE_INT32, TYPE_STRING, TYPE_INT64]
      · simp [c1, c, TYPE_INT32, TYPE_STRING, TYPE_INT64, TYPE_FLOAT32]
    · rw [if_neg c1]
      by_cases c2 : tagAt b (i + 50) = TYPE_STRING
      · rw [if_pos c2]
        simp [c2, ts]
      · rw [if_neg c2]
        by_cases c3 : tagAt b (i + 50) = TYPE_FLOAT32
        · rw [if_pos c3]
          by_cases c : S = 4
          · simp [c3, t4 c, c, TYPE_INT32, TYPE_STRING, TYPE_FLOAT32]
          · simp [c3, c, TYPE_INT32, TYPE_STRING, TYPE_INT64, TYPE_FLOAT32, TYPE_FLOAT64]
        · rw [if_neg c3]
          by_cases c4 : tagAt b (i + 50) = TYPE_FLOAT64
          · rw [if_pos c4]
            by_cases c : S = 8
            · simp [c4, t8 c, c, TYPE_INT32, TYPE_STRING, TYPE_INT64, TYPE_FLOAT64]
            · simp [c4, c, TYPE_INT32, TYPE_STRING, TYPE_INT64, TYPE_FLOAT32, TYPE_FLOAT64]
          · rw [if_neg c4]
            simp [c0, c1, c2, c3, c4]

theorem openLoop_rows (b spare : List Byte) (N refStart : Nat) (hlen : b.length < 2 ^ 32)
    (hdir : rowAddr N ≤ b.length)
    (hr : ∀ j < N, refStart + numAt b (rowAddr j + 51) + numAt b (rowAddr j + 55) ≤ b.length) :
    ∀ (n j budget : Nat), j + n = N → n < budget →
      openLoop ⟨b, spare⟩ (rowAddr N) refStart budget (rowAddr j) (loadedKeys b refStart j) =
        .ok (loadedKeys b refStart N) := by
  intro n
  induction n with
  | zero =>
    intro j budget hj hb
    obtain ⟨budget, rfl⟩ : ∃ k, budget = k + 1 := ⟨budget - 1, by omega⟩
    have : j = N := by omega
    subst this
    simp [openLoop]
  | succ n ih =>
    intro j budget hj hb
    obtain ⟨budget, rfl⟩ : ∃ k, budget = k + 1 := ⟨budget - 1, by omega⟩
    have hlt : rowAddr j < rowAddr N := by unfold rowAddr; omega
    have hnext : (rowAddr j + KEY_SIZE) % 2 ^ 32 = rowAddr (j + 1) := by
      unfold rowAddr KEY_SIZE
      unfold rowAddr at hdir
      omega
    have hrow := openRow_eq b spare refStart (rowAddr j)
      (by unfold rowAddr at hdir ⊢; omega) (by unfold rowAddr at hdir ⊢; omega)
      (hr j (by omega)) (Nat.lt_of_le_of_lt (hr j (by omega)) hlen)
    have hrec := ih (j + 1) budget (by omega) (by omega)
    unfold openLoop
    rw [if_pos hlt, hrow]
    simp only [Res.ok_bind, hnext]
    exact hrec

theorem Open_wellformed (path : String) (b spare : List Byte) (hlen : b.length < 2 ^ 32)
    (hdir : rowAddr (numAt b 0) ≤ b.length)
    (hr : ∀ j < numAt b 0, rowAddr (numAt b 0) + numAt b (rowAddr j + 51) +
      numAt b (rowAddr j + 55) ≤ b.length) :
    Open path ⟨b, spare⟩ false false =
      .ok { Path := path, Size := b.length,
            Keys := loadedKeys b (rowAddr (numAt b 0)) (numAt b 0), KeysCount := numAt b 0 } := by
  have h4 : 4 ≤ b.length := by unfold rowAddr at hdir; omega
  have hs := Slice.slice_inside ⟨b, spare⟩ 0 4 (by omega) (by simpa using h4)
  have hu := Uint32_fieldAt b 0 (by omega)
  have hend : (4 + numAt b 0 * KEY_SIZE % 2 ^ 32) % 2 ^ 32 = rowAddr (numAt b 0) := by
    unfold rowAddr KEY_SIZE
    unfold rowAddr at hdir
    omega
  have hloop := openLoop_rows b spare (numAt b 0) (rowAddr (numAt b 0)) hlen hdir hr
    (numAt b 0) 0 (2 ^ 32) (by omega) (by unfold rowAddr at hdir; omega)
  have h0 : rowAddr 0 = 4 := rfl
  rw [h0] at hloop
  unfold Open
  have hne : b.length ≠ 0 := by omega
  simp only [Bool.and_self, Bool.false_eq_true, if_false, hne, hs, Nat.sub_zero, hu, Res.ok_bind,
    hend]
  simp only [loadedKeys] at hloop
  rw [hloop]
  rfl

theorem loadedKeys_get (b : List Byte) (refStart : Nat) :
    ∀ (n j : Nat), j < n →
      (∀ j', j < j' → j' < n → rowKey b (rowAddr j') ≠ rowKey b (rowAddr j)) →
      mapGet (loadedKeys b refStart n) (rowKey b (rowAddr j)) =
        some (rowVar b refStart (rowAddr j)) := by
  intro n
  induction n with
  | zero => intro j hj; omega
  | succ n ih =>
    intro j hj hlast
    unfold loadedKeys
    by_cases h : j = n
    · subst h
      exact mapGet_mapSet_self _ _ _
    · rw [mapGet_mapSet_ne _ _ _ _ (hlast n (by omega) (by omega))]
      exact ih j (by omega) (fun j' h1 h2 => hlast j' h1 (by omega))

/-! ## `Open` on the file that `Sync` wrote -/

theorem tagAt_append_right (A M : List Byte) (p q : Nat) (h : q = A.length + p) :
    tagAt (A ++ M) q = tagAt M p := by
  subst h
  unfold tagAt
  simp [List.getD_eq_getElem?_getD, List.getElem?_append_right]

theorem numAt_append_right (A M : List Byte) (p q : Nat) (h : q = A.length + p) :
    numAt (A ++ M) q = numAt M p := by
  subst h
  unfold numAt
  rw [tagAt_append_right A M (p + 3) _ (by omega), tagAt_append_right A M (p + 2) _ (by omega),
    tagAt_append_right A M (p + 1) _ (by omega), tagAt_append_right A M p _ rfl]

theorem fieldAt_append_right (A M : List Byte) (p q n : Nat) (h : q = A.length + p) :
    fieldAt (A ++ M) q n = fieldAt M p n := by
  subst h
  unfold fieldAt
  rw [List.drop_append]

theorem fieldAt_zero_append (M B : List Byte) (n : Nat) (h : n = M.length) :
    fieldAt (M ++ B) 0 n = M := by
  subst h
  unfold fieldAt
  simp

theorem numAt_PutUint32 (v : Nat) (B : List Byte) : numAt (PutUint32 v ++ B) 0 = v % 2 ^ 32 := by
  simp only [numAt, tagAt, PutUint32, byte, List.cons_append, List.getD_cons_zero,
    List.getD_cons_succ, List.nil_append]
  omega

theorem padKey_length (k : Key) (h : k.length ≤ 50) : (padKey k).length = 50 := by
  simp [padKey]; omega

theorem row_fields (A B : List Byte) (k : Key) (T : Byte) (off sz : Nat) (hk : k.length ≤ 50) :
    fieldAt (A ++ (layoutRow k T off sz ++ B)) A.length 50 = padKey k ∧
    tagAt (A ++ (layoutRow k T off sz ++ B)) (A.length + 50) = T ∧
    numAt (A ++ (layoutRow k T off sz ++ B)) (A.length + 51) = off % 2 ^ 32 ∧
    numAt (A ++ (layoutRow k T off sz ++ B)) (A.length + 55) = sz % 2 ^ 32 := by
  have hp := padKey_length k hk
  have e : layoutRow k T off sz ++ B =
      padKey k ++ ([T] ++ (PutUint32 off ++ (PutUint32 sz ++ B))) := by
    simp [layoutRow]
  rw [e]
  refine ⟨?_, ?_, ?_, ?_⟩
  · rw [fieldAt_append_right A _ 0 A.length 50 (by omega), fieldAt_zero_append _ _ _ hp.symm]
  · rw [tagAt_append_right A _ 50 _ rfl, tagAt_append_right (padKey k) _ 0 _ (by omega)]
    simp [tagAt]
  · rw [numAt_append_right A _ 51 _ rfl, numAt_append_right (padKey k) _ 1 _ (by omega),
      numAt_append_right [T] _ 0 _ (by simp), numAt_PutUint32]
  · rw [numAt_append_right A _ 55 _ rfl, numAt_append_right (padKey k) _ 5 _ (by omega),
      numAt_append_right [T] _ 4 _ (by simp),
      numAt_append_right (PutUint32 off) _ 0 _ (by simp [PutUint32]), numAt_PutUint32]

theorem layoutRows_append (pre rest : List (Key × Var)) :
    ∀ off, layoutRows (pre ++ rest) off =
      layoutRows pre off ++ layoutRows rest (off + totalSize pre) := by
  induction pre with
  | nil => intro off; simp [layoutRows, totalSize]
  | cons e pre ih =>
    intro off
    simp [layoutRows, ih, totalSize, Nat.add_assoc]

theorem layoutValues_append (pre rest : List (Key × Var)) :
    layoutValues (pre ++ rest) = layoutValues pre ++ layoutValues rest := by
  induction pre with
  | nil => simp [layoutValues]
  | cons e pre ih => simp [layoutValues, ih]

theorem totalSize_append (pre rest : List (Key × Var)) :
    totalSize (pre ++ rest) = totalSize pre + totalSize rest := by
  induction pre with
  | nil => simp [totalSize]
  | cons e pre ih => simp [totalSize, ih]; omega


theorem fileOf_length (es : List (Key × Var)) (hk : ∀ e ∈ es, KeyFits e.1) :
    (fileOf es).length = 4 + 59 * es.length + totalSize es := by
  simp [fileOf, layoutRows_length es 0 hk, layoutValues_length, PutUint32]
  omega

theorem fileOf_count (es : List (Key × Var)) (h : es.length < 2 ^ 32) :
    numAt (fileOf es) 0 = es.length := by
  unfold fileOf
  rw [List.append_assoc, numAt_PutUint32, Nat.mod_eq_of_lt h]

theorem fileOf_row (pre post : List (Key × Var)) (k : Key) (x : Var)
    (hk : ∀ e ∈ pre ++ (k, x) :: post, KeyFits e.1)
    (hsize : 4 + 59 * (pre ++ (k, x) :: post).length + totalSize (pre ++ (k, x) :: post) < 2 ^ 32) :
    rowKey (fileOf (pre ++ (k, x) :: post)) (rowAddr pre.length) = trimZero (padKey k) ∧
    tagAt (fileOf (pre ++ (k, x) :: post)) (rowAddr pre.length + 50) = x.T ∧
    numAt (fileOf (pre ++ (k, x) :: post)) (rowAddr pre.length + 51) = totalSize pre ∧
    numAt (fileOf (pre ++ (k, x) :: post)) (rowAddr pre.length + 55) = x.bytes.length ∧
    fieldAt (fileOf (pre ++ (k, x) :: post))
      (rowAddr (pre ++ (k, x) :: post).length + totalSize pre) x.bytes.length = x.bytes := by
  have hkpre : ∀ e ∈ pre, KeyFits e.1 := fun e he => hk e (List.mem_append_left _ he)
  have hkk : KeyFits k := hk (k, x) (by simp)
  have hts : totalSize (pre ++ (k, x) :: post) = totalSize pre + (x.bytes.length + totalSize post) := by
    rw [totalSize_append]; rfl
  set A := PutUint32 (pre ++ (k, x) :: post).length ++ layoutRows pre 0 with hA
  have hAlen : A.length = rowAddr pre.length := by
    simp [hA, layoutRows_length pre 0 hkpre, PutUint32, rowAddr]; omega
  have hfile : fileOf (pre ++ (k, x) :: post) =
      A ++ (layoutRow k x.T (totalSize pre) x.bytes.length ++
        (layoutRows post (totalSize pre + x.bytes.length) ++
          layoutValues (pre ++ (k, x) :: post))) := by
    simp [fileOf, hA, layoutRows_append, layoutRows]
  have hf := row_fields A (layoutRows post (totalSize pre + x.bytes.length) ++
          layoutValues (pre ++ (k, x) :: post)) k x.T (totalSize pre) x.bytes.length hkk.2
  rw [← hfile, hAlen] at hf
  obtain ⟨f1, f2, f3, f4⟩ := hf
  refine ⟨by unfold rowKey; rw [f1], f2, ?_, ?_, ?_⟩
  · rw [f3]; exact Nat.mod_eq_of_lt (by omega)
  · rw [f4]; exact Nat.mod_eq_of_lt (by omega)
  · have hfile2 : fileOf (pre ++ (k, x) :: post) =
        (PutUint32 (pre ++ (k, x) :: post).length ++ layoutRows (pre ++ (k, x) :: post) 0 ++
          layoutValues pre) ++ (x.bytes ++ layoutValues post) := by
      simp [fileOf, layoutValues_append, layoutValues]
    have hlen2 : (PutUint32 (pre ++ (k, x) :: post).length ++
        layoutRows (pre ++ (k, x) :: post) 0 ++ layoutValues pre).length =
        rowAddr (pre ++ (k, x) :: post).length + totalSize pre := by
      simp only [List.length_append, layoutRows_length _ 0 hk, layoutValues_length, rowAddr]
      simp [PutUint32]
    rw [hfile2, fieldAt_append_right _ _ 0 _ _ (by rw [hlen2]; rfl), fieldAt_zero_append _ _ _ rfl]

theorem rdropWhile_append_zeros (k : List Byte) (n : Nat) :
    (k ++ List.replicate n (0 : Byte)).rdropWhile (fun x => x = 0) =
      k.rdropWhile (fun x => x = 0) := by
  induction n with
  | zero => simp
  | succ n ih =>
    rw [List.replicate_succ', ← List.append_assoc, List.rdropWhile_concat_pos _ _ _ (by simp), ih]

theorem trimZero_padKey (k : Key) (h : NoEdgeZero k) : trimZero (padKey k) = k := by
  unfold trimZero padKey
  rw [rdropWhile_append_zeros]
  obtain ⟨h1, h2⟩ := h
  have e1 : k.rdropWhile (fun x => decide (x = 0)) = k := by
    rw [List.rdropWhile_eq_self_iff]
    intro hne
    have := List.getLast?_eq_getLast k hne
    rw [this] at h2
    simpa using h2
  rw [e1, List.dropWhile_eq_self_iff]
  intro hlen
  cases k with
  | nil => simp at hlen
  | cons a k => simpa using h1

theorem NoEdgeZero_of_not_mem (k : Key) (h : (0 : Byte) ∉ k) : NoEdgeZero k := by
  constructor
  · intro h0
    exact h (List.mem_of_mem_head? h0)
  · intro h0
    exact h (List.mem_of_mem_getLast? h0)

theorem mapGet_of_mem (m : List (Key × Var)) (hn : (m.map Prod.fst).Nodup) (k : Key) (x : Var)
    (h : (k, x) ∈ m) : mapGet m k = some x := by
  induction m with
  | nil => simp at h
  | cons e m ih =>
    obtain ⟨k0, x0⟩ := e
    simp only [List.map_cons, List.nodup_cons] at hn
    rcases List.mem_cons.1 h with h | h
    · cases h; simp [mapGet]
    · have hne : k0 ≠ k := by
        intro e; subst e
        exact hn.1 (List.mem_map.2 ⟨(k0, x), h, rfl⟩)
      simp [mapGet, hne, ih hn.2 h]

theorem mem_of_mapGet (m : List (Key × Var)) (k : Key) (x : Var) (h : mapGet m k = some x) :
    (k, x) ∈ m := by
  induction m with
  | nil => simp [mapGet] at h
  | cons e m ih =>
    obtain ⟨k0, x0⟩ := e
    by_cases hk : k0 = k
    · simp [mapGet, hk] at h; simp [hk, h]
    · simp [mapGet, hk] at h; exact List.mem_cons_of_mem _ (ih h)

theorem mapSet_keys_mem (m : List (Key × Var)) (k : Key) (x : Var) (k' : Key) :
    k' ∈ (mapSet m k x).map Prod.fst ↔ k' = k ∨ k' ∈ m.map Prod.fst := by
  induction m with
  | nil => simp [mapSet]
  | cons e m ih =>
    obtain ⟨k0, x0⟩ := e
    by_cases hk : k0 = k
    · subst hk; simp [mapSet]
    · simp only [mapSet, hk, if_false, List.map_cons, List.mem_cons, ih]
      tauto

theorem mapSet_nodup (m : List (Key × Var)) (k : Key) (x : Var) (hn : (m.map Prod.fst).Nodup) :
    ((mapSet m k x).map Prod.fst).Nodup := by
  induction m with
  | nil => simp [mapSet]
  | cons e m ih =>
    obtain ⟨k0, x0⟩ := e
    simp only [List.map_cons, List.nodup_cons] at hn
    by_cases hk : k0 = k
    · subst hk; simpa [mapSet] using hn
    · simp only [mapSet, hk, if_false, List.map_cons, List.nodup_cons]
      refine ⟨?_, ih hn.2⟩
      rw [mapSet_keys_mem]
      intro h
      rcases h with h | h
      · exact hk h
      · exact hn.1 h

theorem setAll_nodup (calls : List (Key × Value)) :
    ∀ db : DB, (db.Keys.map Prod.fst).Nodup → ((setAll db calls).Keys.map Prod.fst).Nodup := by
  induction calls with
  | nil => intro db h; exact h
  | cons c cs ih =>
    intro db h
    show ((setAll (db.Set c.1 c.2).1 cs).Keys.map Prod.fst).Nodup
    apply ih
    rw [Set_Keys]
    exact mapSet_nodup _ _ _ h

theorem setAll_get (calls : List (Key × Value)) :
    ∀ (db : DB) (k : Key), mapGet (setAll db calls).Keys k =
      match lastSet calls k with
      | some v => some (recordOf v)
      | none => mapGet db.Keys k := by
  induction calls with
  | nil => intro db k; simp [setAll, lastSet]
  | cons c cs ih =>
    intro db k
    obtain ⟨k0, v0⟩ := c
    show mapGet (setAll (db.Set k0 v0).1 cs).Keys k = _
    rw [ih, Set_Keys]
    simp only [lastSet]
    cases h : lastSet cs k with
    | some w => rfl
    | none =>
      by_cases hk : k0 = k
      · subst hk; simp [mapGet_mapSet_self, recordOf]
      · simp [hk, mapGet_mapSet_ne _ _ _ _ hk]

theorem Get_congr (d1 d2 : DB) (k : Key) (x1 x2 : Var) (h1 : mapGet d1.Keys k = some x1)
    (h2 : mapGet d2.Keys k = some x2) (hT : x1.T = x2.T) (hV : x1.bytes = x2.bytes) :
    (d1.Get k).2 = (d2.Get k).2 := by
  unfold DB.Get
  simp only [h1, h2, hT, hV]
  split_ifs <;> rfl

theorem fileOf_row_at (es : List (Key × Var)) (j : Nat) (hj : j < es.length)
    (hk : ∀ e ∈ es, KeyFits e.1) (hsize : 4 + 59 * es.length + totalSize es < 2 ^ 32) :
    rowKey (fileOf es) (rowAddr j) = trimZero (padKey es[j].1) ∧
    tagAt (fileOf es) (rowAddr j + 50) = es[j].2.T ∧
    numAt (fileOf es) (rowAddr j + 51) = totalSize (es.take j) ∧
    numAt (fileOf es) (rowAddr j + 55) = es[j].2.bytes.length ∧
    fieldAt (fileOf es) (rowAddr es.length + totalSize (es.take j)) es[j].2.bytes.length =
      es[j].2.bytes ∧
    totalSize (es.take j) + es[j].2.bytes.length ≤ totalSize es := by
  have hsplit : es = es.take j ++ (es[j].1, es[j].2) :: es.drop (j + 1) := by
    rw [Prod.mk.eta, List.getElem_cons_drop _ _ hj, List.take_append_drop]
  have hlen : (es.take j).length = j := by rw [List.length_take]; omega
  have h := fileOf_row (es.take j) (es.drop (j + 1)) es[j].1 es[j].2
    (by rw [← hsplit]; exact hk) (by rw [← hsplit]; exact hsize)
  rw [← hsplit, hlen] at h
  obtain ⟨h1, h2, h3, h4, h5⟩ := h
  refine ⟨h1, h2, h3, h4, h5, ?_⟩
  have : totalSize es = totalSize (es.take j) + (es[j].2.bytes.length + totalSize (es.drop (j + 1))) := by
    conv_lhs => rw [hsplit]
    rw [totalSize_append]; rfl
  omega

theorem Sliced_of_Sound (x : Var) (h : x.Sound) : Sliced x.T x.bytes.length := by
  obtain ⟨h4, h8, htag, _⟩ := h
  unfold Sliced
  rcases htag with c | c | c | c | c
  · exact Or.inr (Or.inl ⟨Or.inl c, h4 (Or.inl c)⟩)
  · exact Or.inr (Or.inr ⟨Or.inl c, h8 (Or.inl c)⟩)
  · exact Or.inl c
  · exact Or.inr (Or.inl ⟨Or.inr c, h4 (Or.inr c)⟩)
  · exact Or.inr (Or.inr ⟨Or.inr c, h8 (Or.inr c)⟩)

theorem Open_fileOf (path : String) (es : List (Key × Var)) (spare : List Byte)
    (hk : ∀ e ∈ es, KeyFits e.1) (hz : ∀ e ∈ es, NoEdgeZero e.1) (hs : ∀ e ∈ es, e.2.Sound)
    (hn : (es.map Prod.fst).Nodup) (hsize : 4 + 59 * es.length + totalSize es < 2 ^ 32) :
    ∃ db, Open path ⟨fileOf es, spare⟩ false false = .ok db ∧
      ∀ e ∈ es, ∃ x, mapGet db.Keys e.1 = some x ∧ x.T = e.2.T ∧ x.V = some e.2.bytes := by
  have hN : numAt (fileOf es) 0 = es.length := fileOf_count es (by omega)
  have hL := fileOf_length es hk
  have hopen := Open_wellformed path (fileOf es) spare (by omega)
    (by rw [hN, hL]; unfold rowAddr; omega)
    (by
      intro j hj
      rw [hN] at hj ⊢
      obtain ⟨_, _, h3, h4, _, h6⟩ := fileOf_row_at es j hj hk hsize
      rw [h3, h4, hL]; unfold rowAddr; omega)
  refine ⟨_, hopen, ?_⟩
  intro e he
  obtain ⟨j, hj, hej⟩ := List.getElem_of_mem he
  have hkey : ∀ j' (hj' : j' < es.length), rowKey (fileOf es) (rowAddr j') = es[j'].1 := by
    intro j' hj'
    rw [(fileOf_row_at es j' hj' hk hsize).1]
    exact trimZero_padKey _ (hz _ (List.getElem_mem _))
  obtain ⟨_, h2, h3, h4, h5, _⟩ := fileOf_row_at es j hj hk hsize
  have hget := loadedKeys_get (fileOf es) (rowAddr (numAt (fileOf es) 0)) (numAt (fileOf es) 0) j
    (by rw [hN]; exact hj)
    (by
      intro j' h1 h2
      rw [hN] at h2
      rw [hkey j' h2, hkey j hj]
      intro heq
      have := (@List.Nodup.getElem_inj_iff _ _ hn j' (by simpa using h2) j
        (by simpa using hj)).1 (by simpa using heq)
      omega)
  rw [hkey j hj, hej] at hget
  refine ⟨_, hget, ?_, ?_⟩
  · simp only [rowVar]; rw [h2, hej]
  · simp only [rowVar]
    rw [h2, h4, hN, h3, if_pos (Sliced_of_Sound _ (hs _ (List.getElem_mem _))), h5, hej]

theorem Get_of_record (db : DB) (key : Key) (v : Value) (hs : v.Supported) (hr : v.InRange)
    (h : mapGet db.Keys key = some (recordOf v)) : (db.Get key).2 = .ok v := by
  have h0 := Get_Set db key v hs hr
  have h1 : mapGet (db.Set key v).1.Keys key = some (recordOf v) := by
    rw [Set_Keys, mapGet_mapSet_self]; rfl
  rw [← h0]
  exact Get_congr _ _ key _ _ h h1 rfl rfl

theorem lastSet_mem (calls : List (Key × Value)) (k : Key) (v : Value)
    (h : lastSet calls k = some v) : (k, v) ∈ calls := by
  induction calls with
  | nil => simp [lastSet] at h
  | cons c cs ih =>
    obtain ⟨k0, v0⟩ := c
    simp only [lastSet] at h
    cases hl : lastSet cs k with
    | some w =>
      rw [hl] at h
      simp only [Option.some.injEq] at h
      subst h
      exact List.mem_cons_of_mem _ (ih hl)
    | none =>
      rw [hl] at h
      by_cases hk : k0 = k
      · simp [hk] at h; simp [hk, h]
      · simp [hk] at h

theorem lastSet_of_mem (calls : List (Key × Value)) (c : Key × Value) (h : c ∈ calls) :
    ∃ v, lastSet calls c.1 = some v := by
  induction calls with
  | nil => simp at h
  | cons c0 cs ih =>
    obtain ⟨k0, v0⟩ := c0
    simp only [lastSet]
    cases hl : lastSet cs c.1 with
    | some w => exact ⟨w, rfl⟩
    | none =>
      rcases List.mem_cons.1 h with h | h
      · subst h; simp
      · obtain ⟨v, hv⟩ := ih h
        rw [hl] at hv; cases hv

theorem totalSize_perm (a b : List (Key × Var)) (h : a.Perm b) : totalSize a = totalSize b := by
  induction h with
  | nil => rfl
  | cons x _ ih => simp [totalSize, ih]
  | swap x y l => simp [totalSize]; omega
  | trans _ _ ih1 ih2 => rw [ih1, ih2]

theorem setAll_entry (path : String) (calls : List (Key × Value)) (e : Key × Var)
    (he : e ∈ (setAll (emptyDB path) calls).Keys) :
    ∃ v, (e.1, v) ∈ calls ∧ e.2 = recordOf v := by
  have hnod := setAll_nodup calls (emptyDB path) (by simp [emptyDB])
  have hget := mapGet_of_mem _ hnod e.1 e.2 he
  rw [setAll_get] at hget
  cases hl : lastSet calls e.1 with
  | some v =>
    rw [hl] at hget
    simp only [Option.some.injEq] at hget
    exact ⟨v, lastSet_mem _ _ _ hl, hget.symm⟩
  | none =>
    rw [hl] at hget
    simp [emptyDB, mapGet] at hget

theorem roundtrip_core (path path' : String) (calls : List (Key × Value))
    (order : List (Key × Var)) (spare : List Byte)
    (hfit : ∀ c ∈ calls, KeyFits c.1) (hz : ∀ c ∈ calls, NoEdgeZero c.1)
    (hvals : ∀ c ∈ calls, c.2.Supported ∧ c.2.InRange)
    (horder : order.Perm (setAll (emptyDB path) calls).Keys)
    (hsize : 4 + 59 * (setAll (emptyDB path) calls).Keys.length +
      totalSize (setAll (emptyDB path) calls).Keys < 2 ^ 32) :
    ∃ bytes db, (setAll (emptyDB path) calls).Sync order none = .ok bytes ∧
      Open path' ⟨bytes, spare⟩ false false = .ok db ∧
      ∀ k v, lastSet calls k = some v → (db.Get k).2 = .ok v := by
  have hnod := setAll_nodup calls (emptyDB path) (by simp [emptyDB])
  have hent : ∀ e ∈ order, ∃ v, (e.1, v) ∈ calls ∧ e.2 = recordOf v :=
    fun e he => setAll_entry path calls e (horder.mem_iff.1 he)
  have hk : ∀ e ∈ order, KeyFits e.1 := by
    intro e he
    obtain ⟨v, hv, _⟩ := hent e he
    exact hfit _ hv
  have hzo : ∀ e ∈ order, NoEdgeZero e.1 := by
    intro e he
    obtain ⟨v, hv, _⟩ := hent e he
    exact hz _ hv
  have hs : ∀ e ∈ order, e.2.Sound := by
    intro e he
    obtain ⟨v, hv, hrec⟩ := hent e he
    exact Sound_of_WrittenBySet _ ⟨v, (hvals _ hv).1, hrec⟩
  have hno : (order.map Prod.fst).Nodup := (horder.map Prod.fst).nodup_iff.2 hnod
  have hsz : 4 + 59 * order.length + totalSize order < 2 ^ 32 := by
    rw [horder.length_eq, totalSize_perm _ _ horder]; exact hsize
  have hsync := Sync_eq_layout (setAll (emptyDB path) calls) order horder.length_eq hk hs
  obtain ⟨db, hopen, hdb⟩ := Open_fileOf path' order spare hk hzo hs hno hsz
  refine ⟨_, db, hsync, hopen, ?_⟩
  intro k v hl
  have hv := hvals _ (lastSet_mem _ _ _ hl)
  have hget : mapGet (setAll (emptyDB path) calls).Keys k = some (recordOf v) := by
    rw [setAll_get, hl]
  have hmem : (k, recordOf v) ∈ order := horder.mem_iff.2 (mem_of_mapGet _ _ _ hget)
  obtain ⟨x, hx, hT, hV⟩ := hdb _ hmem
  rw [← Get_of_record _ k v hv.1 hv.2 hget]
  exact Get_congr _ _ k _ _ hx hget hT (by simp [Var.bytes, hV])

/-! ## Persistence round trip (C1, C2), codec round trip (C3), layout (C4) -/

/-- C1, counterexample: the key that is the single byte 0 is a legal 1-byte
key, `Set` stores an int32 under it and `Sync` writes it, but the row's key
field is then all zero, `Open` registers the record under the empty key, and
`Get` of the key that was set reports that the key doesn't exist. -/
theorem persist_roundtrip_fails_on_zero_key :
    KeyFits ([0] : Key) ∧ (Value.int32 5).Supported ∧ (Value.int32 5).InRange ∧
    ∃ bytes db,
      (setAll (emptyDB "db") [([0], Value.int32 5)]).Sync
        (setAll (emptyDB "db") [([0], Value.int32 5)]).Keys none = .ok bytes ∧
      Open "db" ⟨bytes, []⟩ false false = .ok db ∧
      lastSet [([0], Value.int32 5)] [0] = some (Value.int32 5) ∧
      (db.Get [0]).2 = .error .keyMissing :=
  ⟨by decide, by decide, by decide, _, _, rfl, rfl, rfl, rfl⟩

/-- C1, amended: for every store built from the empty store by `Set` calls
whose keys have 1 to 50 bytes and neither begin nor end with a zero byte,
whose values are in-range values of the five supported types, and whose file
size `4 + 59 * N + total value bytes` is below `2 ^ 32`, `Sync` in any
visiting order succeeds, `Open` of the bytes written succeeds, and `Get` of
every key returns exactly the value last set for it. -/
theorem persist_roundtrip (path path' : String) (calls : List (Key × Value))
    (order : List (Key × Var)) (spare : List Byte)
    (hkeys : ∀ c ∈ calls, KeyFits c.1 ∧ NoEdgeZero c.1)
    (hvals : ∀ c ∈ calls, c.2.Supported ∧ c.2.InRange)
    (horder : order.Perm (setAll (emptyDB path) calls).Keys)
    (hsize : 4 + 59 * (setAll (emptyDB path) calls).Keys.length +
      totalSize (setAll (emptyDB path) calls).Keys < 2 ^ 32) :
    ∃ bytes db, (setAll (emptyDB path) calls).Sync order none = .ok bytes ∧
      Open path' ⟨bytes, spare⟩ false false = .ok db ∧
      ∀ k v, lastSet calls k = some v → (db.Get k).2 = .ok v :=
  roundtrip_core path path' calls order spare (fun c hc => (hkeys c hc).1)
    (fun c hc => (hkeys c hc).2) hvals horder hsize

/-- C1, witness: the scenario of the specification, `Set("a", int32(-5))`,
`Set("name", "hi")`, with a key that holds an interior zero byte added. -/
theorem persist_roundtrip_witness :
    (∀ c ∈ [(([97] : Key), Value.int32 (-5)), ([110, 97, 109, 101], Value.string [104, 105]),
        ([1, 0, 1], Value.float32 7)], KeyFits c.1 ∧ NoEdgeZero c.1) ∧
    ∃ bytes db,
      (setAll (emptyDB "db") [([97], Value.int32 (-5)),
        ([110, 97, 109, 101], Value.string [104, 105]), ([1, 0, 1], Value.float32 7)]).Sync
        [([97], recordOf (Value.int32 (-5))),
          ([110, 97, 109, 101], recordOf (Value.string [104, 105])),
          ([1, 0, 1], recordOf (Value.float32 7))] none = .ok bytes ∧
      Open "db" ⟨bytes, []⟩ false false = .ok db ∧
      ∀ k v, lastSet [([97], Value.int32 (-5)), ([110, 97, 109, 101], Value.string [104, 105]),
        ([1, 0, 1], Value.float32 7)] k = some v → (db.Get k).2 = .ok v :=
  ⟨by decide, persist_roundtrip "db" "db" _ _ [] (by decide) (by decide) (List.Perm.refl _)
    (by decide)⟩

/-- C2: for every store built from the empty store by `Set` calls whose keys
have 1 to 50 bytes and no zero byte, whose values are in-range values of the
five supported types, and with `4 + 59 * N + total value bytes` below
`2 ^ 32`: whatever order `Sync` visits the entries in, `Sync` succeeds, a
fresh `Open` of the bytes written succeeds, and `Get` on every key that was
set returns no error and the value that was last set. -/
theorem Set_Sync_Open_Get (path path' : String) (calls : List (Key × Value))
    (order : List (Key × Var)) (spare : List Byte)
    (hkeys : ∀ c ∈ calls, KeyFits c.1 ∧ (0 : Byte) ∉ c.1)
    (hvals : ∀ c ∈ calls, c.2.Supported ∧ c.2.InRange)
    (horder : order.Perm (setAll (emptyDB path) calls).Keys)
    (hsize : 4 + 59 * (setAll (emptyDB path) calls).Keys.length +
      totalSize (setAll (emptyDB path) calls).Keys < 2 ^ 32) :
    ∃ bytes db, (setAll (emptyDB path) calls).Sync order none = .ok bytes ∧
      Open path' ⟨bytes, spare⟩ false false = .ok db ∧
      ∀ c ∈ calls, ∃ v, lastSet calls c.1 = some v ∧ (db.Get c.1).2 = .ok v := by
  obtain ⟨bytes, db, h1, h2, h3⟩ := roundtrip_core path path' calls order spare
    (fun c hc => (hkeys c hc).1) (fun c hc => NoEdgeZero_of_not_mem _ (hkeys c hc).2)
    hvals horder hsize
  refine ⟨bytes, db, h1, h2, ?_⟩
  intro c hc
  obtain ⟨v, hv⟩ := lastSet_of_mem calls c hc
  exact ⟨v, hv, h3 _ _ hv⟩

/-- C2, witness: the five `Set` calls of `TestKeyy_FullTest`, with `Sync`
visiting the entries in the reverse of the order they were set in. -/
theorem Set_Sync_Open_Get_witness :
    (∀ c ∈ fullTestCalls, KeyFits c.1 ∧ (0 : Byte) ∉ c.1) ∧
    (∀ c ∈ fullTestCalls, c.2.Supported ∧ c.2.InRange) ∧
    ∃ bytes db,
      (setAll (emptyDB "/tmp/shouldNotExist.keyy") fullTestCalls).Sync
        (setAll (emptyDB "/tmp/shouldNotExist.keyy") fullTestCalls).Keys.reverse none =
          .ok bytes ∧
      Open "/tmp/shouldNotExist.keyy" ⟨bytes, []⟩ false false = .ok db ∧
      ∀ c ∈ fullTestCalls, ∃ v, lastSet fullTestCalls c.1 = some v ∧ (db.Get c.1).2 = .ok v :=
  ⟨by decide, by decide,
    Set_Sync_Open_Get "/tmp/shouldNotExist.keyy" "/tmp/shouldNotExist.keyy" fullTestCalls _ []
      (by decide) (by decide) (List.reverse_perm _) (by decide)⟩

/-- C3: for every store, every key and every in-range value `v` of a supported
type (int32, int64, string, float32 and float64 by bit pattern), `Get(key)`
right after `Set(key, v)` returns `v` itself, with its type and no error. -/
theorem Set_then_Get (db : DB) (key : Key) (v : Value) (hs : v.Supported) (hr : v.InRange) :
    ((db.Set key v).1.Get key).2 = .ok v :=
  Get_Set db key v hs hr

/-- C3, witness: a negative int32 set over an existing key of another type. -/
theorem Set_then_Get_witness :
    (Value.int32 (-5)).Supported ∧ (Value.int32 (-5)).InRange ∧
    (((setAll (emptyDB "db") [([107], Value.string [104, 105])]).Set [107]
      (Value.int32 (-5))).1.Get [107]).2 = .ok (Value.int32 (-5)) :=
  ⟨by decide, by decide, Set_then_Get _ [107] (Value.int32 (-5)) (by decide) (by decide)⟩

/-- C4: for every store whose records were all written by `Set` with supported
values and whose keys have 1 to 50 bytes, and for the order `e1..eN` in which
`Sync` visits the entries, the bytes written are the big-endian count `N`, then
the `N` directory rows, then the `N` raw values in the same order; row `i` is
59 bytes: the key padded with zero bytes to 50 bytes, the type tag, the
big-endian sum of the sizes of the entries before it, the big-endian size of
the entry; the total length is `4 + 59 * N + the sum of the sizes`.  The size
of an entry is the number of bytes of its raw value; the size field of its
record encodes to the same four bytes, and is that number when the raw value
has fewer than `2 ^ 32` bytes. -/
theorem Sync_layout (db : DB) (order : List (Key × Var)) (horder : order.Perm db.Keys)
    (hkeys : ∀ e ∈ db.Keys, KeyFits e.1) (hset : ∀ e ∈ db.Keys, WrittenBySet e.2) :
    db.Sync order none =
      .ok (PutUint32 order.length ++ layoutRows order 0 ++ layoutValues order) ∧
    (∀ e ∈ order, ∀ offset, (layoutRow e.1 e.2.T offset e.2.bytes.length).length = 59) ∧
    (∀ e ∈ order, PutUint32 e.2.S = PutUint32 e.2.bytes.length ∧
      (e.2.bytes.length < 2 ^ 32 → e.2.S = e.2.bytes.length)) ∧
    (PutUint32 order.length ++ layoutRows order 0 ++ layoutValues order).length =
      4 + 59 * order.length + totalSize order := by
  have hk : ∀ e ∈ order, KeyFits e.1 := fun e he => hkeys e (horder.mem_iff.1 he)
  have hs : ∀ e ∈ order, e.2.Sound :=
    fun e he => Sound_of_WrittenBySet _ (hset e (horder.mem_iff.1 he))
  refine ⟨Sync_eq_layout db order horder.length_eq hk hs, ?_, ?_, fileOf_length order hk⟩
  · intro e he offset
    exact layoutRow_length _ _ _ _ (hk e he).2
  · intro e he
    refine ⟨PutUint32_congr _ _ (hs e he).2.2.2, fun hlt => ?_⟩
    obtain ⟨v, hv, hrec⟩ := hset e (horder.mem_iff.1 he)
    have hS : e.2.S < 2 ^ 32 := by
      rw [hrec]
      cases v <;> simp [recordOf, encodeValue]
      omega
    have := (hs e he).2.2.2
    omega

/-- C4, witness: the store of the test, visited in reverse order. -/
theorem Sync_layout_witness :
    (∀ e ∈ (setAll (emptyDB "db") fullTestCalls).Keys, KeyFits e.1) ∧
    (setAll (emptyDB "db") fullTestCalls).Sync
        (setAll (emptyDB "db") fullTestCalls).Keys.reverse none =
      .ok (PutUint32 (setAll (emptyDB "db") fullTestCalls).Keys.reverse.length ++
        layoutRows (setAll (emptyDB "db") fullTestCalls).Keys.reverse 0 ++
        layoutValues (setAll (emptyDB "db") fullTestCalls).Keys.reverse) :=
  ⟨by decide,
    (Sync_layout (setAll (emptyDB "db") fullTestCalls) _ (List.reverse_perm _) (by decide)
      (by
        intro e he
        obtain ⟨v, hv, hrec⟩ := setAll_entry "db" fullTestCalls e he
        have hsup : ∀ c ∈ fullTestCalls, c.2.Supported := by decide
        exact ⟨v, hsup _ hv, hrec⟩)).1⟩

/-! ## The encoding table (C6) -/

theorem bigEndian_four (v : Nat) : bigEndian 4 v = PutUint32 v := by
  simp [bigEndian, PutUint32]

theorem bigEndian_eight (v : Nat) : bigEndian 8 v = PutUint64 v := by
  simp [bigEndian, PutUint64]

theorem twosComplement32 (v : Int) (h1 : -(2 : Int) ^ 31 ≤ v) (h2 : v < 2 ^ 31) :
    twosComplement 32 v = uint32OfInt v := by
  unfold twosComplement uint32OfInt
  split <;> omega

theorem twosComplement64 (v : Int) (h1 : -(2 : Int) ^ 63 ≤ v) (h2 : v < 2 ^ 63) :
    twosComplement 64 v = uint64OfInt v := by
  unfold twosComplement uint64OfInt
  split <;> omega

theorem specEncode_eq (v : Value) (hr : v.InRange) (t : Byte) (sz : Nat) (bytes : List Byte)
    (h : specEncode v = some (t, sz, bytes)) :
    encodeValue v = (t, sz % 2 ^ 32, some bytes) := by
  cases v with
  | int32 x =>
    simp only [Value.InRange] at hr
    simp only [specEncode, Option.some.injEq, Prod.mk.injEq] at h
    obtain ⟨rfl, rfl, rfl⟩ := h
    simp [encodeValue, bigEndian_four, twosComplement32 x hr.1 hr.2, TYPE_INT32]
  | int64 x =>
    simp only [Value.InRange] at hr
    simp only [specEncode, Option.some.injEq, Prod.mk.injEq] at h
    obtain ⟨rfl, rfl, rfl⟩ := h
    simp [encodeValue, bigEndian_eight, twosComplement64 x hr.1 hr.2, TYPE_INT64]
  | float32 x =>
    simp only [specEncode, Option.some.injEq, Prod.mk.injEq] at h
    obtain ⟨rfl, rfl, rfl⟩ := h
    simp [encodeValue, bigEndian_four, TYPE_FLOAT32]
  | float64 x =>
    simp only [specEncode, Option.some.injEq, Prod.mk.injEq] at h
    obtain ⟨rfl, rfl, rfl⟩ := h
    simp [encodeValue, bigEndian_eight, TYPE_FLOAT64]
  | string s =>
    simp only [specEncode, Option.some.injEq, Prod.mk.injEq] at h
    obtain ⟨rfl, rfl, rfl⟩ := h
    simp [encodeValue, TYPE_STRING]
  | other => simp [specEncode] at h

/-- C6, counterexample: for a string of `2 ^ 32` bytes the table asks for
size `2 ^ 32`, and `Set` stores `uint32(len(s))`, which is 0. -/
theorem Set_size_wraps_counterexample :
    specEncode (Value.string (List.replicate (2 ^ 32) 0)) =
      some (2, 2 ^ 32, List.replicate (2 ^ 32) 0) ∧
    mapGet ((emptyDB "db").Set [107] (Value.string (List.replicate (2 ^ 32) 0))).1.Keys [107] =
      some { T := 2, R := 0, S := 0, V := some (List.replicate (2 ^ 32) 0) } := by
  constructor
  · simp only [specEncode, List.length_replicate]
  · rw [Set_Keys, mapGet_mapSet_self]
    simp only [encodeValue, List.length_replicate, Nat.mod_self, TYPE_STRING]

/-- C6, amended: for every store, key and in-range value of a supported type,
after `Set` the record of the key has offset 0, and tag, size and bytes as in
the encoding table (int32: tag 0, size 4, big-endian two's-complement; int64:
tag 1, size 8; string: tag 2, the bytes unchanged; float32: tag 3, size 4, the
bit pattern big-endian; float64: tag 4, size 8), where the size of a string is
its byte length modulo `2 ^ 32`: the byte length itself for a string shorter
than `2 ^ 32` bytes.  `Set` returns no error. -/
theorem Set_encoding (db : DB) (key : Key) (v : Value) (t : Byte) (sz : Nat) (bytes : List Byte)
    (hr : v.InRange) (h : specEncode v = some (t, sz, bytes)) :
    mapGet (db.Set key v).1.Keys key =
      some { T := t, R := 0, S := sz % 2 ^ 32, V := some bytes } ∧
    (sz < 2 ^ 32 → sz % 2 ^ 32 = sz) ∧ (db.Set key v).2 = none := by
  refine ⟨?_, Nat.mod_eq_of_lt, ?_⟩
  · rw [Set_Keys, mapGet_mapSet_self, specEncode_eq v hr t sz bytes h]
  · unfold DB.Set
    cases mapGet db.Keys key <;> rfl

/-- C6, witness: `Set("a", int32(-5))` stores `ff ff ff fb`. -/
theorem Set_encoding_witness :
    (Value.int32 (-5)).InRange ∧ specEncode (Value.int32 (-5)) = some (0, 4, [255, 255, 255, 251]) ∧
    mapGet ((emptyDB "db").Set [97] (Value.int32 (-5))).1.Keys [97] =
      some { T := 0, R := 0, S := 4 % 2 ^ 32, V := some [255, 255, 255, 251] } :=
  ⟨by decide, by decide,
    (Set_encoding (emptyDB "db") [97] (Value.int32 (-5)) 0 4 [255, 255, 255, 251] (by decide)
      (by decide)).1⟩

/-! ## Key validation in `Sync` (C7) -/

theorem syncLoop_ok_of_fit (es : List (Key × Var)) :
    ∀ (keys values : List Byte) (off : Nat), (∀ e ∈ es, KeyFits e.1) →
      ∃ r, syncLoop es keys values off = .ok r := by
  induction es with
  | nil => intro keys values off _; exact ⟨_, rfl⟩
  | cons e es ih =>
    intro keys values off hk
    obtain ⟨key, x⟩ := e
    have hkey : KeyFits key := hk (key, x) (List.mem_cons_self _ _)
    unfold KeyFits at hkey
    have hne : key.length ≠ 0 := by omega
    unfold syncLoop
    simp only [hne, if_false, hkey.2, and_true, Nat.pos_of_ne_zero hne, if_true]
    exact ih _ _ _ (fun e he => hk e (List.mem_cons_of_mem _ he))

theorem syncLoop_error_of_bad (es : List (Key × Var)) :
    ∀ (keys values : List Byte) (off : Nat), (∃ e ∈ es, ¬ KeyFits e.1) →
      ∃ e ∈ es, (e.1.length = 0 ∧ syncLoop es keys values off = .error (.keyEmpty e.1)) ∨
        (50 < e.1.length ∧ syncLoop es keys values off = .error (.keyTooLong e.1)) := by
  induction es with
  | nil => intro keys values off h; obtain ⟨e, he, _⟩ := h; simp at he
  | cons e es ih =>
    intro keys values off hbad
    obtain ⟨key, x⟩ := e
    by_cases h0 : key.length = 0
    · refine ⟨(key, x), List.mem_cons_self _ _, Or.inl ⟨h0, ?_⟩⟩
      unfold syncLoop
      simp [h0]
    · by_cases h50 : key.length ≤ 50
      · have hrest : ∃ e ∈ es, ¬ KeyFits e.1 := by
          obtain ⟨e, he, hne⟩ := hbad
          rcases List.mem_cons.1 he with h | h
          · subst h
            exact absurd ⟨by simp only; omega, h50⟩ hne
          · exact ⟨e, h, hne⟩
        unfold syncLoop
        simp only [h0, if_false, h50, and_true, Nat.pos_of_ne_zero h0, if_true]
        obtain ⟨e, he, hres⟩ := ih _ _ _ hrest
        exact ⟨e, List.mem_cons_of_mem _ he, hres⟩
      · refine ⟨(key, x), List.mem_cons_self _ _, Or.inr ⟨by simp only; omega, ?_⟩⟩
        unfold syncLoop
        simp [h0, h50]

theorem Sync_ok_of_loop (db : DB) (order : List (Key × Var)) (r : List Byte × List Byte)
    (h : syncLoop order [] [] 0 = .ok r) :
    db.Sync order none = .ok (PutUint32 (db.Keys.length % 2 ^ 32) ++ r.1 ++ r.2) := by
  unfold DB.Sync
  simp [h]

theorem Sync_error_of_loop (db : DB) (order : List (Key × Var)) (err : KeyyError)
    (h : syncLoop order [] [] 0 = .error err) : db.Sync order none = .error err := by
  unfold DB.Sync
  simp [h]

/-- C7: with a storage that accepts the writes, `Sync` returns an error if and
only if the store contains a key of length 0 or of more than 50 bytes, in
whatever order the entries are visited; the error names a key of length 0 or a
key of more than 50 bytes; and `Sync` succeeds if and only if every key has 1
to 50 bytes. -/
theorem Sync_error_iff (db : DB) (order : List (Key × Var)) (horder : order.Perm db.Keys) :
    ((∃ err, db.Sync order none = .error err) ↔
      ∃ e ∈ db.Keys, e.1.length = 0 ∨ 50 < e.1.length) ∧
    ((∃ bytes, db.Sync order none = .ok bytes) ↔ ∀ e ∈ db.Keys, KeyFits e.1) ∧
    (∀ err, db.Sync order none = .error err →
      ∃ e ∈ db.Keys, (e.1.length = 0 ∧ err = .keyEmpty e.1) ∨
        (50 < e.1.length ∧ err = .keyTooLong e.1)) := by
  by_cases hall : ∀ e ∈ order, KeyFits e.1
  · obtain ⟨r, hr⟩ := syncLoop_ok_of_fit order [] [] 0 hall
    have hok := Sync_ok_of_loop db order r hr
    have hall' : ∀ e ∈ db.Keys, KeyFits e.1 := fun e he => hall e (horder.mem_iff.2 he)
    refine ⟨⟨?_, ?_⟩, ⟨fun _ => hall', fun _ => ⟨_, hok⟩⟩, ?_⟩
    · rintro ⟨err, herr⟩; rw [hok] at herr; cases herr
    · rintro ⟨e, he, hbad⟩
      have := hall' e he
      unfold KeyFits at this
      omega
    · intro err herr; rw [hok] at herr; cases herr
  · have hbad : ∃ e ∈ order, ¬ KeyFits e.1 := by
      by_contra hcon
      exact hall (fun e he => by_contra (fun hne => hcon ⟨e, he, hne⟩))
    obtain ⟨e, he, hres⟩ := syncLoop_error_of_bad order [] [] 0 hbad
    have he' : e ∈ db.Keys := horder.mem_iff.1 he
    have herr : ∃ err, db.Sync order none = .error err ∧
        ((e.1.length = 0 ∧ err = .keyEmpty e.1) ∨ (50 < e.1.length ∧ err = .keyTooLong e.1)) := by
      rcases hres with ⟨h0, hl⟩ | ⟨h50, hl⟩
      · exact ⟨_, Sync_error_of_loop db order _ hl, Or.inl ⟨h0, rfl⟩⟩
      · exact ⟨_, Sync_error_of_loop db order _ hl, Or.inr ⟨h50, rfl⟩⟩
    obtain ⟨err, herr, hkind⟩ := herr
    have hlen : e.1.length = 0 ∨ 50 < e.1.length := by
      rcases hkind with ⟨h, _⟩ | ⟨h, _⟩
      · exact Or.inl h
      · exact Or.inr h
    refine ⟨⟨fun _ => ⟨e, he', hlen⟩, fun _ => ⟨err, herr⟩⟩, ⟨?_, ?_⟩, ?_⟩
    · rintro ⟨bytes, hb⟩; rw [herr] at hb; cases hb
    · intro hfit
      have := hfit e he'
      unfold KeyFits at this
      omega
    · intro err' herr'
      rw [herr] at herr'
      cases herr'
      exact ⟨e, he', hkind⟩

/-- C7, witness: a store whose only key has exactly 50 bytes is saved, and a
store that also holds a key of 51 bytes is not. -/
theorem Sync_error_iff_witness :
    (∃ bytes, (setAll (emptyDB "db") [(List.replicate 50 97, Value.int32 1)]).Sync
      (setAll (emptyDB "db") [(List.replicate 50 97, Value.int32 1)]).Keys none = .ok bytes) ∧
    (∃ err, (setAll (emptyDB "db") [(List.replicate 50 97, Value.int32 1),
        (List.replicate 51 97, Value.int32 1)]).Sync
      (setAll (emptyDB "db") [(List.replicate 50 97, Value.int32 1),
        (List.replicate 51 97, Value.int32 1)]).Keys none = .error err) :=
  ⟨(Sync_error_iff (setAll (emptyDB "db") [(List.replicate 50 97, Value.int32 1)]) _
      (List.Perm.refl _)).2.1.2 (by decide),
    (Sync_error_iff (setAll (emptyDB "db") [(List.replicate 50 97, Value.int32 1),
        (List.replicate 51 97, Value.int32 1)]) _ (List.Perm.refl _)).1.2
      ⟨(List.replicate 51 97, recordOf (Value.int32 1)), by decide, by decide⟩⟩

/-! ## `Get` (C9, C10) -/

theorem Uint32_decode (bytes : List Byte) (h : bytes.length = 4) :
    ∃ u, Uint32 bytes = .ok u ∧ u < 2 ^ 32 ∧ bigEndian 4 u = bytes := by
  match bytes, h with
  | [a, b, c, d], _ =>
    refine ⟨_, rfl, ?_, ?_⟩
    · have := a.isLt; have := b.isLt; have := c.isLt; have := d.isLt
      omega
    · have ha := a.isLt; have hb := b.isLt; have hc := c.isLt; have hd := d.isLt
      simp only [bigEndian, byte, List.cons.injEq, and_true]
      refine ⟨?_, ?_, ?_, ?_⟩ <;> apply Fin.ext <;> simp only <;> omega

theorem Uint64_decode (bytes : List Byte) (h : bytes.length = 8) :
    ∃ u, Uint64 bytes = .ok u ∧ u < 2 ^ 64 ∧ bigEndian 8 u = bytes := by
  match bytes, h with
  | [a, b, c, d, e, f, g, i], _ =>
    refine ⟨_, rfl, ?_, ?_⟩
    · have := a.isLt; have := b.isLt; have := c.isLt; have := d.isLt
      have := e.isLt; have := f.isLt; have := g.isLt; have := i.isLt
      omega
    · have ha := a.isLt; have hb := b.isLt; have hc := c.isLt; have hd := d.isLt
      have he := e.isLt; have hf := f.isLt; have hg := g.isLt; have hi := i.isLt
      simp only [bigEndian, byte, List.cons.injEq, and_true]
      refine ⟨?_, ?_, ?_, ?_, ?_, ?_, ?_, ?_⟩ <;> apply Fin.ext <;> simp only <;> omega

theorem twosComplement_int32OfNat (u : Nat) (h : u < 2 ^ 32) :
    twosComplement 32 (int32OfNat u) = u ∧ (Value.int32 (int32OfNat u)).InRange := by
  constructor
  · unfold twosComplement int32OfNat
    split <;> split <;> omega
  · simp only [Value.InRange]
    unfold int32OfNat
    split <;> omega

theorem twosComplement_int64OfNat (u : Nat) (h : u < 2 ^ 64) :
    twosComplement 64 (int64OfNat u) = u ∧ (Value.int64 (int64OfNat u)).InRange := by
  constructor
  · unfold twosComplement int64OfNat
    split <;> split <;> omega
  · simp only [Value.InRange]
    unfold int64OfNat
    split <;> omega

theorem Uint32_cases (b : List Byte) : (∃ u, Uint32 b = .ok u) ∨ Uint32 b = .panic := by
  unfold Uint32
  split
  · exact Or.inl ⟨_, rfl⟩
  · exact Or.inr rfl

theorem Uint64_cases (b : List Byte) : (∃ u, Uint64 b = .ok u) ∨ Uint64 b = .panic := by
  unfold Uint64
  split
  · exact Or.inl ⟨_, rfl⟩
  · exact Or.inr rfl

theorem Get_present_ne_missing (db : DB) (key : Key) (x : Var)
    (h : mapGet db.Keys key = some x) : (db.Get key).2 ≠ .error .keyMissing := by
  unfold DB.Get
  simp only [h]
  split_ifs
  · rcases Uint32_cases x.bytes with ⟨u, hu⟩ | hu <;> simp [hu]
  · rcases Uint64_cases x.bytes with ⟨u, hu⟩ | hu <;> simp [hu]
  · rcases Uint32_cases x.bytes with ⟨u, hu⟩ | hu <;> simp [hu]
  · rcases Uint64_cases x.bytes with ⟨u, hu⟩ | hu <;> simp [hu]
  · simp
  · simp

theorem Get_decodes (db : DB) (key : Key) (x : Var) (h : mapGet db.Keys key = some x)
    (hw : Sliced x.T x.bytes.length) :
    ∃ v, (db.Get key).2 = .ok v ∧ v.InRange ∧
      specEncode v = some (x.T, x.bytes.length, x.bytes) := by
  unfold DB.Get
  simp only [h]
  unfold Sliced at hw
  rcases hw with c | ⟨c | c, hl⟩ | ⟨c | c, hl⟩
  · refine ⟨.string x.bytes, ?_, trivial, ?_⟩
    · simp [c, TYPE_STRING, TYPE_INT32, TYPE_INT64, TYPE_FLOAT32, TYPE_FLOAT64]
    · simp [specEncode, c, TYPE_STRING]
  · obtain ⟨u, hu, hlt, hb⟩ := Uint32_decode x.bytes hl
    obtain ⟨h1, h2⟩ := twosComplement_int32OfNat u hlt
    refine ⟨.int32 (int32OfNat u), ?_, h2, ?_⟩
    · simp [c, hu]
    · simp [specEncode, c, TYPE_INT32, h1, hb, hl]
  · obtain ⟨u, hu, hlt, hb⟩ := Uint32_decode x.bytes hl
    refine ⟨.float32 u, ?_, hlt, ?_⟩
    · simp [c, hu, TYPE_INT32, TYPE_INT64, TYPE_FLOAT32]
    · simp [specEncode, c, TYPE_FLOAT32, hb, hl]
  · obtain ⟨u, hu, hlt, hb⟩ := Uint64_decode x.bytes hl
    obtain ⟨h1, h2⟩ := twosComplement_int64OfNat u hlt
    refine ⟨.int64 (int64OfNat u), ?_, h2, ?_⟩
    · simp [c, hu, TYPE_INT32, TYPE_INT64]
    · simp [specEncode, c, TYPE_INT64, h1, hb, hl]
  · obtain ⟨u, hu, hlt, hb⟩ := Uint64_decode x.bytes hl
    refine ⟨.float64 u, ?_, hlt, ?_⟩
    · simp [c, hu, TYPE_INT32, TYPE_INT64, TYPE_FLOAT32, TYPE_FLOAT64]
    · simp [specEncode, c, TYPE_FLOAT64, hb, hl]

/-- C9: for every store and key, `Get` returns the error "key doesn't exist"
if and only if the key is absent from the map; `Get` leaves the store as it
was; and when the key is present with a tag in 0..4 and a raw value of the
tag's width (any length for a string), `Get` returns, with no error, the
in-range value of the tag's type whose encoding is the raw value. -/
theorem Get_missing_iff (db : DB) (key : Key) :
    ((db.Get key).2 = .error .keyMissing ↔ mapGet db.Keys key = none) ∧
    (db.Get key).1 = db ∧
    (∀ x, mapGet db.Keys key = some x → Sliced x.T x.bytes.length →
      ∃ v, (db.Get key).2 = .ok v ∧ v.InRange ∧
        specEncode v = some (x.T, x.bytes.length, x.bytes)) := by
  refine ⟨⟨?_, ?_⟩, ?_, fun x hx hw => Get_decodes db key x hx hw⟩
  · intro hget
    cases hm : mapGet db.Keys key with
    | none => rfl
    | some x => exact absurd hget (Get_present_ne_missing db key x hm)
  · intro hm
    unfold DB.Get
    simp [hm]
  · unfold DB.Get
    cases mapGet db.Keys key with
    | none => rfl
    | some x => simp only; split_ifs <;> rfl

/-- C9, witness: a store with an int64 under "k": `Get("k")` decodes it, and
`Get("j")` reports the missing key. -/
theorem Get_missing_iff_witness :
    mapGet (setAll (emptyDB "db") [([107], Value.int64 (-2))]).Keys [106] = none ∧
    ((setAll (emptyDB "db") [([107], Value.int64 (-2))]).Get [106]).2 = .error .keyMissing ∧
    ∃ v, ((setAll (emptyDB "db") [([107], Value.int64 (-2))]).Get [107]).2 = .ok v ∧ v.InRange ∧
      specEncode v = some ((recordOf (Value.int64 (-2))).T,
        (recordOf (Value.int64 (-2))).bytes.length, (recordOf (Value.int64 (-2))).bytes) :=
  ⟨by decide,
    (Get_missing_iff (setAll (emptyDB "db") [([107], Value.int64 (-2))]) [106]).1.2 (by decide),
    (Get_missing_iff (setAll (emptyDB "db") [([107], Value.int64 (-2))]) [107]).2.2
      (recordOf (Value.int64 (-2))) (by decide) (by decide)⟩

/-- C10, the failing input: a file with one directory row, key "k", tag Int32,
offset 0, size 0.  `Open` accepts the file and registers the record with the
`nil` raw value; `Get("k")` then indexes the `nil` slice in
`binary.BigEndian.Uint32` and panics, where the claim asks for an error. -/
theorem Get_panics_on_mismatched_row :
    Open "db" ⟨[0, 0, 0, 1] ++ layoutRow [107] TYPE_INT32 0 0, []⟩ false false =
      .ok { Path := "db", Size := 63,
            Keys := [([107], { T := TYPE_INT32, R := 0, S := 0, V := none })],
            KeysCount := 1 } ∧
    (DB.Get { Path := "db", Size := 63,
              Keys := [([107], { T := TYPE_INT32, R := 0, S := 0, V := none })],
              KeysCount := 1 } [107]).2 = .panic := by
  decide

/-! ## Slicing in `Open` (C5) -/

theorem wrapFile_length : wrapFile.length = 4294967309 := by
  unfold wrapFile
  rw [List.length_append, List.length_append, List.length_append, List.length_replicate,
    layoutRow_length _ _ _ _ (by decide)]
  rfl

theorem openLoop_succ (fb : Slice) (e r n i : Nat) (keys : List (Key × Var)) :
    openLoop fb e r (n + 1) i keys =
      if i < e then
        openRow fb r i >>= fun p =>
          openLoop fb e r n ((i + KEY_SIZE) % 2 ^ 32) (mapSet keys p.1 p.2)
      else .ok keys := by
  rw [openLoop]
  rfl

theorem wrapFile_row :
    openRow ⟨wrapFile, []⟩ 12 4 = .ok ([1], { T := 2, R := 0, S := 1, V := some [0] }) := by
  have hL := wrapFile_length
  have h55 : numAt wrapFile 55 = 0 := by decide
  have h59 : numAt wrapFile 59 = 1 := by decide
  have hrow := openRow_eq wrapFile [] 12 4 (by omega) (by omega)
    (by rw [h55, h59, hL]; omega) (by rw [h55, h59]; omega)
  have hkey : rowKey wrapFile 4 = [1] := by decide
  have hvar : rowVar wrapFile 12 4 = { T := 2, R := 0, S := 1, V := some [0] } := by decide
  rw [hkey, hvar] at hrow
  exact hrow

theorem wrapFile_loop :
    openLoop ⟨wrapFile, []⟩ 12 12 (4294967294 + 1 + 1) 4 [] =
      .ok [([1], { T := 2, R := 0, S := 1, V := some [0] })] := by
  rw [openLoop_succ, if_pos (by decide), wrapFile_row, Res.ok_bind, openLoop_succ,
    if_neg (by decide)]
  rfl

theorem Open_eq_loop (path : String) (b spare : List Byte) (h4 : 4 ≤ b.length) :
    Open path ⟨b, spare⟩ false false =
      (openLoop ⟨b, spare⟩ ((4 + numAt b 0 * KEY_SIZE % 2 ^ 32) % 2 ^ 32)
          ((4 + numAt b 0 * KEY_SIZE % 2 ^ 32) % 2 ^ 32) (2 ^ 32) 4 [] >>= fun keys =>
        .ok { Path := path, Size := b.length, Keys := keys, KeysCount := numAt b 0 }) := by
  have hs := Slice.slice_inside ⟨b, spare⟩ 0 4 (by omega) (by simpa using h4)
  have hu := Uint32_fieldAt b 0 (by omega)
  have hne : b.length ≠ 0 := by omega
  unfold Open
  simp only [Bool.and_self, Bool.false_eq_true, if_false, hne, hs, Nat.sub_zero, hu, Res.ok_bind]
  rfl

theorem wrapFile_Open :
    Open "db" ⟨wrapFile, []⟩ false false =
      .ok { Path := "db", Size := 4294967309,
            Keys := [([1], { T := 2, R := 0, S := 1, V := some [0] })],
            KeysCount := 72796056 } := by
  have hL := wrapFile_length
  have hN : numAt wrapFile 0 = 72796056 := by decide
  have hend : (4 + 72796056 * KEY_SIZE % 2 ^ 32) % 2 ^ 32 = 12 := by decide
  have hbudget : (2 : Nat) ^ 32 = 4294967294 + 1 + 1 := by norm_num
  rw [Open_eq_loop "db" wrapFile [] (by omega), hN, hend, hbudget, wrapFile_loop, hL]
  rfl

theorem tagAt_zeros (A t : List Byte) (M q : Nat) (h1 : A.length ≤ q) (h2 : q < A.length + M) :
    tagAt (A ++ (List.replicate M (0 : Byte) ++ t)) q = 0 := by
  rw [tagAt_append_right A _ (q - A.length) q (by omega)]
  unfold tagAt
  rw [List.getD_append _ _ _ _ (by rw [List.length_replicate]; omega),
    List.getD_eq_getElem?_getD, List.getElem?_replicate]
  split <;> rfl

theorem fieldAt_zeros (A t : List Byte) (M q n : Nat) (h1 : A.length ≤ q)
    (h2 : q + n ≤ A.length + M) :
    fieldAt (A ++ (List.replicate M (0 : Byte) ++ t)) q n = List.replicate n 0 := by
  rw [fieldAt_append_right A _ (q - A.length) q n (by omega)]
  unfold fieldAt
  rw [List.drop_append_of_le_length (by rw [List.length_replicate]; omega), List.drop_replicate,
    List.take_append_of_le_length (by rw [List.length_replicate]; omega), List.take_replicate]
  congr 1
  omega

theorem wrapFile_zero (q : Nat) (h1 : 63 ≤ q) (h2 : q < 4294967308) : tagAt wrapFile q = 0 := by
  have hA : ([4, 86, 199, 152] ++ layoutRow [1] TYPE_STRING 0 1 : List Byte).length = 63 := by
    decide
  unfold wrapFile
  exact tagAt_zeros _ _ _ q (by omega) (by omega)

theorem wrapFile_num_zero (p : Nat) (h1 : 63 ≤ p) (h2 : p + 3 < 4294967308) :
    numAt wrapFile p = 0 := by
  unfold numAt
  rw [wrapFile_zero p h1 (by omega), wrapFile_zero (p + 1) (by omega) (by omega),
    wrapFile_zero (p + 2) (by omega) (by omega), wrapFile_zero (p + 3) (by omega) h2]
  rfl

theorem wrapFile_later_key (j : Nat) (h1 : 0 < j) (h2 : j < 72796056) :
    rowKey wrapFile (rowAddr j) = [] := by
  have hA : ([4, 86, 199, 152] ++ layoutRow [1] TYPE_STRING 0 1 : List Byte).length = 63 := by
    decide
  have hf : fieldAt wrapFile (rowAddr j) 50 = List.replicate 50 0 := by
    unfold wrapFile
    exact fieldAt_zeros _ _ _ _ 50 (by unfold rowAddr; omega) (by unfold rowAddr; omega)
  unfold rowKey
  rw [hf]
  decide

theorem wrapFile_value : fieldAt wrapFile (rowAddr 72796056) 1 = [7] := by
  have hA : ([4, 86, 199, 152] ++ layoutRow [1] TYPE_STRING 0 1 : List Byte).length = 63 := by
    decide
  unfold wrapFile
  rw [← List.append_assoc, fieldAt_append_right _ _ 0 _ 1
    (by rw [List.length_append, List.length_replicate, hA]; unfold rowAddr; omega)]
  rfl

/-- C5, counterexample: `wrapFile` has header count `N = 72796056`, holds its
whole directory, and every row's range lies inside it; its row 0 (key `01`,
whose key no later row repeats) has tag String, offset 0 and size 1, and the
byte of the file at `4 + 59 * N + 0` is `07`.  `Open` computes the start of
the value region in 32 bits, as 12, and gives the record the raw value `00`,
the byte at address 12. -/
theorem Open_slicing_wraps_counterexample :
    numAt wrapFile 0 = 72796056 ∧ rowAddr 72796056 ≤ wrapFile.length ∧
    (∀ j < 72796056, rowAddr 72796056 + numAt wrapFile (rowAddr j + 51) +
      numAt wrapFile (rowAddr j + 55) ≤ wrapFile.length) ∧
    (∀ j, 0 < j → j < 72796056 → rowKey wrapFile (rowAddr j) ≠ rowKey wrapFile (rowAddr 0)) ∧
    rowKey wrapFile (rowAddr 0) = [1] ∧ tagAt wrapFile (rowAddr 0 + 50) = TYPE_STRING ∧
    numAt wrapFile (rowAddr 0 + 51) = 0 ∧ numAt wrapFile (rowAddr 0 + 55) = 1 ∧
    fieldAt wrapFile (rowAddr 72796056 + 0) 1 = [7] ∧
    ∃ db, Open "db" ⟨wrapFile, []⟩ false false = .ok db ∧
      mapGet db.Keys [1] = some { T := TYPE_STRING, R := 0, S := 1, V := some [0] } := by
  have hL := wrapFile_length
  have hk0 : rowKey wrapFile (rowAddr 0) = [1] := by decide
  have h55 : numAt wrapFile (rowAddr 0 + 51) = 0 := by decide
  have h59 : numAt wrapFile (rowAddr 0 + 55) = 1 := by decide
  refine ⟨by decide, by rw [hL]; decide, ?_, ?_, hk0, by decide, h55, h59, wrapFile_value,
    _, wrapFile_Open, rfl⟩
  · intro j hj
    rcases Nat.eq_zero_or_pos j with h0 | hpos
    · subst h0
      rw [h55, h59, hL]; decide
    · rw [wrapFile_num_zero _ (by unfold rowAddr; omega) (by unfold rowAddr; omega),
        wrapFile_num_zero _ (by unfold rowAddr; omega) (by unfold rowAddr; omega), hL]
      decide
  · intro j h1 h2
    rw [wrapFile_later_key j h1 h2, hk0]
    decide

theorem Open_flags (path : String) (s : Slice) (readErr createErr : Bool) :
    Open path s readErr createErr =
      if readErr && createErr then .error .storage else Open path s false false := by
  unfold Open
  cases readErr <;> cases createErr <;> simp

/-- C5, amended: for every byte sequence `b` of fewer than `2 ^ 32` bytes with
header count `N`, length at least `4 + 59 * N`, and every row's range
`[4 + 59 * N + offset, 4 + 59 * N + offset + size)` inside `b`, `Open`
succeeds and registers, for each row whose key no later row repeats, a record
with the row's type tag, offset and size and, when the tag is String or a
fixed-width tag whose size is its width, with the bytes of `b` in the row's
range as raw value: offsets count from the end of the directory. -/
theorem Open_slicing (path : String) (b spare : List Byte) (hlen : b.length < 2 ^ 32)
    (hdir : rowAddr (numAt b 0) ≤ b.length)
    (hr : ∀ j < numAt b 0, rowAddr (numAt b 0) + numAt b (rowAddr j + 51) +
      numAt b (rowAddr j + 55) ≤ b.length) :
    ∃ db, Open path ⟨b, spare⟩ false false = .ok db ∧
      ∀ j < numAt b 0,
        (∀ j', j < j' → j' < numAt b 0 → rowKey b (rowAddr j') ≠ rowKey b (rowAddr j)) →
        ∃ x, mapGet db.Keys (rowKey b (rowAddr j)) = some x ∧
          x.T = tagAt b (rowAddr j + 50) ∧ x.R = numAt b (rowAddr j + 51) ∧
          x.S = numAt b (rowAddr j + 55) ∧
          (Sliced x.T x.S → x.V = some (fieldAt b (rowAddr (numAt b 0) + x.R) x.S)) := by
  refine ⟨_, Open_wellformed path b spare hlen hdir hr, ?_⟩
  intro j hj hlast
  refine ⟨_, loadedKeys_get b _ _ j hj hlast, rfl, rfl, rfl, ?_⟩
  intro hs
  simp only [rowVar] at hs ⊢
  rw [if_pos hs]


/-- C5, witness: the file `sampleFile`. -/
theorem Open_slicing_witness :
    sampleFile.length < 2 ^ 32 ∧ rowAddr (numAt sampleFile 0) ≤ sampleFile.length ∧
    ∃ db, Open "db" ⟨sampleFile, []⟩ false false = .ok db ∧
      ∀ j < numAt sampleFile 0,
        (∀ j', j < j' → j' < numAt sampleFile 0 →
          rowKey sampleFile (rowAddr j') ≠ rowKey sampleFile (rowAddr j)) →
        ∃ x, mapGet db.Keys (rowKey sampleFile (rowAddr j)) = some x ∧
          x.T = tagAt sampleFile (rowAddr j + 50) ∧ x.R = numAt sampleFile (rowAddr j + 51) ∧
          x.S = numAt sampleFile (rowAddr j + 55) ∧
          (Sliced x.T x.S →
            x.V = some (fieldAt sampleFile (rowAddr (numAt sampleFile 0) + x.R) x.S)) :=
  ⟨by decide, by decide, Open_slicing "db" sampleFile [] (by decide) (by decide) (by decide)⟩

/-! ## The iteration budget of `Open` -/

theorem openLoop_ne_fuel (fb : Slice) (e r : Nat) (he : e < 2 ^ 32)
    (hrow : ∀ i, openRow fb r i ≠ .fuel) :
    ∀ (k j budget : Nat) (keys : List (Key × Var)), j + k = 3712598849 → k < budget →
      openLoop fb e r budget ((4 + 59 * j) % 2 ^ 32) keys ≠ .fuel := by
  intro k
  induction k with
  | zero =>
    intro j budget keys hj hb
    obtain ⟨budget, rfl⟩ : ∃ n, budget = n + 1 := ⟨budget - 1, by omega⟩
    have hj' : j = 3712598849 := by omega
    subst hj'
    have hlast : (4 + 59 * 3712598849) % 2 ^ 32 = 4294967295 := by decide
    rw [openLoop_succ, hlast, if_neg (by omega)]
    simp
  | succ k ih =>
    intro j budget keys hj hb
    obtain ⟨budget, rfl⟩ : ∃ n, budget = n + 1 := ⟨budget - 1, by omega⟩
    rw [openLoop_succ]
    split
    · have hnext : ((4 + 59 * j) % 2 ^ 32 + KEY_SIZE) % 2 ^ 32 = (4 + 59 * (j + 1)) % 2 ^ 32 := by
        unfold KEY_SIZE; omega
      rw [hnext]
      cases hr : openRow fb r ((4 + 59 * j) % 2 ^ 32) with
      | ok p => exact ih (j + 1) budget _ (by omega) (by omega)
      | error err => simp [bind, Res.bind]
      | panic => simp
      | fuel => exact absurd hr (hrow _)
    · simp

theorem Slice.slice_ne_fuel (s : Slice) (lo hi : Nat) : s.slice lo hi ≠ .fuel := by
  unfold Slice.slice
  split <;> simp

theorem Res.bind_ne_fuel {α β : Type} (x : Res α) (f : α → Res β) (hx : x ≠ .fuel)
    (hf : ∀ a, f a ≠ .fuel) : (x >>= f) ≠ .fuel := by
  cases x with
  | ok a => exact hf a
  | error err => intro h; cases h
  | panic => intro h; cases h
  | fuel => exact absurd rfl hx

theorem Uint32_ne_fuel (b : List Byte) : Uint32 b ≠ .fuel := by
  rcases Uint32_cases b with ⟨u, hu⟩ | hu <;> simp [hu]

theorem openRow_ne_fuel (fb : Slice) (r i : Nat) : openRow fb r i ≠ .fuel := by
  unfold openRow
  refine Res.bind_ne_fuel _ _ (Slice.slice_ne_fuel _ _ _) (fun keyBuf => ?_)
  refine Res.bind_ne_fuel _ _ (by unfold Slice.index; split <;> simp) (fun varType => ?_)
  refine Res.bind_ne_fuel _ _
    (Res.bind_ne_fuel _ _ (Slice.slice_ne_fuel _ _ _) Uint32_ne_fuel) (fun ref => ?_)
  refine Res.bind_ne_fuel _ _
    (Res.bind_ne_fuel _ _ (Slice.slice_ne_fuel _ _ _) Uint32_ne_fuel) (fun valueSize => ?_)
  simp only
  split_ifs <;>
    first
    | exact Res.bind_ne_fuel _ _ (Slice.slice_ne_fuel _ _ _) (fun v => by simp)
    | simp

/-- The iteration budget of `Open` is never used up: the model of `Open` ends
in a return, an error or a panic, as the Go function does. -/
theorem Open_ne_fuel (path : String) (fb : Slice) (readErr createErr : Bool) :
    Open path fb readErr createErr ≠ .fuel := by
  unfold Open
  split
  · simp
  · dsimp only
    split
    · simp
    · refine Res.bind_ne_fuel _ _
        (Res.bind_ne_fuel _ _ (Slice.slice_ne_fuel _ _ _) Uint32_ne_fuel) (fun keysCount => ?_)
      refine Res.bind_ne_fuel _ _ ?_ (fun keys => by simp)
      have h := openLoop_ne_fuel fb ((4 + keysCount * KEY_SIZE % 2 ^ 32) % 2 ^ 32)
        ((4 + keysCount * KEY_SIZE % 2 ^ 32) % 2 ^ 32) (Nat.mod_lt _ (by decide))
        (openRow_ne_fuel fb _) 3712598849 0 (2 ^ 32) [] (by omega) (by omega)
      exact h

/-! ## `Set` on values and keys it does not check (C11, C12), key trimming (C13) -/

theorem Set_eq (db : DB) (key : Key) (v : Value) :
    (db.Set key v).1 = { db with Keys := mapSet db.Keys key (recordOf v) } ∧
    (db.Set key v).2 = none := by
  unfold DB.Set
  cases mapGet db.Keys key <;> exact ⟨rfl, rfl⟩

theorem Get_eq_of_mapGet (d1 d2 : DB) (k : Key) (h : mapGet d1.Keys k = mapGet d2.Keys k) :
    (d1.Get k).2 = (d2.Get k).2 := by
  unfold DB.Get
  rw [h]
  cases mapGet d2.Keys k with
  | none => rfl
  | some x => simp only; split_ifs <;> rfl

/-- C11, the failing input: `Set("k", 7)` with the Go `int` 7, a value of none
of the five types.  For every store and key, `Set` with such a value returns
no error and writes the record with tag 0 (Int32), size 0 and the `nil` raw
value under the key, where the claim asks for an UnsupportedType error and an
unchanged map; `Get` of the key then panics. -/
theorem Set_accepts_unsupported (db : DB) (key : Key) :
    (db.Set key Value.other).2 = none ∧
    mapGet (db.Set key Value.other).1.Keys key =
      some { T := TYPE_INT32, R := 0, S := 0, V := none } ∧
    ((db.Set key Value.other).1.Get key).2 = .panic ∧
    (emptyDB "db").Set [107] Value.other =
      ({ Path := "db", Size := 0,
         Keys := [([107], { T := TYPE_INT32, R := 0, S := 0, V := none })],
         KeysCount := 0 }, none) := by
  have hget : mapGet (db.Set key Value.other).1.Keys key =
      some { T := TYPE_INT32, R := 0, S := 0, V := none } := by
    rw [Set_Keys, mapGet_mapSet_self]; rfl
  refine ⟨(Set_eq db key .other).2, hget, ?_, by decide⟩
  unfold DB.Get
  rw [hget]
  rfl

/-- C12, counterexample: `Set("", int32(1))` on the empty store returns no
error and inserts the record under the empty key. -/
theorem Set_empty_key_counterexample :
    (emptyDB "db").Set [] (Value.int32 1) =
      ({ Path := "db", Size := 0, Keys := [([], recordOf (Value.int32 1))], KeysCount := 0 },
        none) := by
  decide

/-- C12, amended: for every store and every value, `Set` with the zero-length
key returns no error and writes the record under the empty key; the empty key
is rejected by `Sync`: whatever the visiting order, `Sync` of the store
returns an error, and the error is the empty-key error when the other keys of
the store have 1 to 50 bytes. -/
theorem Set_empty_key_rejected_by_Sync (db : DB) (v : Value) (order : List (Key × Var))
    (horder : order.Perm (db.Set [] v).1.Keys) :
    (db.Set [] v).2 = none ∧
    mapGet (db.Set [] v).1.Keys [] = some (recordOf v) ∧
    ∃ err, (db.Set [] v).1.Sync order none = .error err ∧
      ((∀ k ∈ db.Keys.map Prod.fst, k ≠ [] → KeyFits k) → err = .keyEmpty []) := by
  have hget : mapGet (db.Set [] v).1.Keys [] = some (recordOf v) := by
    rw [Set_Keys, mapGet_mapSet_self]; rfl
  have hmem : (([] : Key), recordOf v) ∈ order :=
    horder.mem_iff.2 (mem_of_mapGet _ _ _ hget)
  obtain ⟨e, he, hres⟩ := syncLoop_error_of_bad order [] [] 0
    ⟨_, hmem, by unfold KeyFits; simp⟩
  have hekey : e.1 ∈ (db.Set [] v).1.Keys.map Prod.fst :=
    List.mem_map.2 ⟨e, horder.mem_iff.1 he, rfl⟩
  rw [Set_Keys, mapSet_keys_mem] at hekey
  refine ⟨(Set_eq db [] v).2, hget, ?_⟩
  rcases hres with ⟨h0, hl⟩ | ⟨h50, hl⟩
  · refine ⟨_, Sync_error_of_loop _ order _ hl, fun _ => ?_⟩
    rw [List.length_eq_zero.1 h0]
  · refine ⟨_, Sync_error_of_loop _ order _ hl, fun hfit => ?_⟩
    rcases hekey with h | h
    · rw [h] at h50; simp at h50
    · have hne : e.1 ≠ [] := by
        intro h'; rw [h'] at h50; simp at h50
      have := hfit _ h hne
      unfold KeyFits at this
      omega

/-- C12, witness: the empty key set next to the key "k". -/
theorem Set_empty_key_rejected_by_Sync_witness :
    ((setAll (emptyDB "db") [([107], Value.int32 1)]).Set [] (Value.int32 2)).2 = none ∧
    ∃ err, ((setAll (emptyDB "db") [([107], Value.int32 1)]).Set [] (Value.int32 2)).1.Sync
        ((setAll (emptyDB "db") [([107], Value.int32 1)]).Set [] (Value.int32 2)).1.Keys none =
        .error err ∧
      ((∀ k ∈ (setAll (emptyDB "db") [([107], Value.int32 1)]).Keys.map Prod.fst,
        k ≠ [] → KeyFits k) → err = .keyEmpty []) :=
  ⟨(Set_empty_key_rejected_by_Sync (setAll (emptyDB "db") [([107], Value.int32 1)])
      (Value.int32 2) _ (List.Perm.refl _)).1,
    (Set_empty_key_rejected_by_Sync (setAll (emptyDB "db") [([107], Value.int32 1)])
      (Value.int32 2) _ (List.Perm.refl _)).2.2⟩

/-- C13, the failing input: a file with one directory row whose key field is
`00 61` followed by 48 zero bytes.  The field with its trailing zero bytes
removed is `00 61`; `Open` registers the record under `61`: `bytes.Trim` also
removes the leading zero byte.  The file is what `Sync` writes after
`Set("\x00a", "")`. -/
theorem Open_trims_leading_zero :
    (fieldAt ([0, 0, 0, 1] ++ layoutRow [0, 97] TYPE_STRING 0 0) 4 50).rdropWhile
      (fun x => x = 0) = [0, 97] ∧
    Open "db" ⟨[0, 0, 0, 1] ++ layoutRow [0, 97] TYPE_STRING 0 0, []⟩ false false =
      .ok { Path := "db", Size := 63,
            Keys := [([97], { T := TYPE_STRING, R := 0, S := 0, V := some [] })],
            KeysCount := 1 } ∧
    (setAll (emptyDB "db") [([0, 97], Value.string [])]).Sync
        (setAll (emptyDB "db") [([0, 97], Value.string [])]).Keys none =
      .ok ([0, 0, 0, 1] ++ layoutRow [0, 97] TYPE_STRING 0 0) := by
  decide

/-! ## Overwrite (C15), the empty store (C16), the frame of `Set` (C19) -/

theorem mapSet_mapSet (m : List (Key × Var)) (k : Key) (x y : Var) :
    mapSet (mapSet m k x) k y = mapSet m k y := by
  induction m with
  | nil => simp [mapSet]
  | cons e m ih =>
    obtain ⟨k0, w⟩ := e
    by_cases h : k0 = k
    · simp [mapSet, h]
    · simp [mapSet, h, ih]

theorem mapSet_length_of_mem (m : List (Key × Var)) (k : Key) (x : Var)
    (h : k ∈ m.map Prod.fst) : (mapSet m k x).length = m.length := by
  induction m with
  | nil => simp at h
  | cons e m ih =>
    obtain ⟨k0, w⟩ := e
    by_cases hk : k0 = k
    · simp [mapSet, hk]
    · have : k ∈ m.map Prod.fst := by
        simp only [List.map_cons, List.mem_cons] at h
        rcases h with h | h
        · exact absurd h.symm hk
        · exact h
      simp [mapSet, hk, ih this]

/-- C15: for every store, key `k` and values `v1` and `v2`, `v2` an in-range
value of a supported type, `Set(k, v1)` followed by `Set(k, v2)` leaves the
store that `Set(k, v2)` alone leaves: the record of `k` is the one of `v2`,
with nothing of `v1` in it, `Get(k)` returns `v2`, and the second `Set` does
not change the number of keys. -/
theorem Set_overwrite (db : DB) (k : Key) (v1 v2 : Value) (hs : v2.Supported)
    (hr : v2.InRange) :
    ((db.Set k v1).1.Set k v2).1 = (db.Set k v2).1 ∧
    mapGet ((db.Set k v1).1.Set k v2).1.Keys k = some (recordOf v2) ∧
    (((db.Set k v1).1.Set k v2).1.Get k).2 = .ok v2 ∧
    ((db.Set k v1).1.Set k v2).1.Keys.length = (db.Set k v1).1.Keys.length := by
  have h1 := (Set_eq db k v1).1
  have h2 := (Set_eq db k v2).1
  have h12 := (Set_eq (db.Set k v1).1 k v2).1
  refine ⟨?_, ?_, Get_Set _ k v2 hs hr, ?_⟩
  · rw [h12, h2, h1]
    simp only [mapSet_mapSet]
  · rw [Set_Keys, mapGet_mapSet_self]; rfl
  · rw [Set_Keys (db.Set k v1).1]
    apply mapSet_length_of_mem
    rw [Set_Keys, mapSet_keys_mem]
    exact Or.inl rfl

/-- C15, witness: `Set("k", int32(1))` then `Set("k", "text")`. -/
theorem Set_overwrite_witness :
    (((emptyDB "db").Set [107] (Value.int32 1)).1.Set [107]
      (Value.string [116, 101, 120, 116])).1 =
      ((emptyDB "db").Set [107] (Value.string [116, 101, 120, 116])).1 ∧
    ((((emptyDB "db").Set [107] (Value.int32 1)).1.Set [107]
      (Value.string [116, 101, 120, 116])).1.Get [107]).2 =
      .ok (Value.string [116, 101, 120, 116]) ∧
    (((emptyDB "db").Set [107] (Value.int32 1)).1.Set [107]
      (Value.string [116, 101, 120, 116])).1.Keys.length = 1 :=
  ⟨(Set_overwrite (emptyDB "db") [107] (Value.int32 1) (Value.string [116, 101, 120, 116])
      (by decide) (by decide)).1,
    (Set_overwrite (emptyDB "db") [107] (Value.int32 1) (Value.string [116, 101, 120, 116])
      (by decide) (by decide)).2.2.1, by decide⟩

/-- C16: `Open` of the zero-length byte sequence gives the store with entry
count 0 and the empty map, and `Sync` of a store with the empty map writes
exactly the four bytes `00 00 00 00`. -/
theorem Empty_store (path : String) (spare : List Byte) (db : DB) (order : List (Key × Var))
    (hempty : db.Keys = []) (horder : order.Perm db.Keys) :
    Open path ⟨[], spare⟩ false false =
      .ok { Path := path, Size := 0, Keys := [], KeysCount := 0 } ∧
    db.Sync order none = .ok [0, 0, 0, 0] := by
  refine ⟨rfl, ?_⟩
  rw [hempty] at horder
  have ho : order = [] := List.Perm.eq_nil horder
  subst ho
  unfold DB.Sync
  rw [hempty]
  rfl

/-- C16, witness: the store that `Open` returns for a path with no file. -/
theorem Empty_store_witness :
    (emptyDB "db").Keys = [] ∧
    Open "db" ⟨[], []⟩ false false =
      .ok { Path := "db", Size := 0, Keys := [], KeysCount := 0 } ∧
    (emptyDB "db").Sync [] none = .ok [0, 0, 0, 0] :=
  ⟨rfl, Empty_store "db" [] (emptyDB "db") [] rfl (List.Perm.refl _)⟩

/-- C19: for every store, keys `k` and `k'` with `k'` different from `k`, and
every value `v` (of a supported type or not), after `Set(k, v)` the map gives
for `k'` what it gave before (absent, or the same record with the same tag,
offset, size and raw value), `Get(k')` returns the same result, and the keys
of the map are the old keys with `k` added. -/
theorem Set_frame (db : DB) (k k' : Key) (v : Value) (hne : k' ≠ k) :
    mapGet (db.Set k v).1.Keys k' = mapGet db.Keys k' ∧
    ((db.Set k v).1.Get k').2 = (db.Get k').2 ∧
    (∀ key, key ∈ (db.Set k v).1.Keys.map Prod.fst ↔ key = k ∨ key ∈ db.Keys.map Prod.fst) := by
  have hget : mapGet (db.Set k v).1.Keys k' = mapGet db.Keys k' := by
    rw [Set_Keys, mapGet_mapSet_ne _ _ _ _ (Ne.symm hne)]
  refine ⟨hget, Get_eq_of_mapGet _ _ k' hget, fun key => ?_⟩
  rw [Set_Keys, mapSet_keys_mem]

/-- C19, witness: `Set("a", ...)` on a store that holds "k". -/
theorem Set_frame_witness :
    ([107] : Key) ≠ [97] ∧
    mapGet ((setAll (emptyDB "db") [([107], Value.int64 3)]).Set [97] (Value.int32 1)).1.Keys
      [107] = mapGet (setAll (emptyDB "db") [([107], Value.int64 3)]).Keys [107] ∧
    (((setAll (emptyDB "db") [([107], Value.int64 3)]).Set [97] (Value.int32 1)).1.Get [107]).2 =
      ((setAll (emptyDB "db") [([107], Value.int64 3)]).Get [107]).2 :=
  ⟨by decide,
    (Set_frame (setAll (emptyDB "db") [([107], Value.int64 3)]) [97] [107] (Value.int32 1)
      (by decide)).1,
    (Set_frame (setAll (emptyDB "db") [([107], Value.int64 3)]) [97] [107] (Value.int32 1)
      (by decide)).2.1⟩

/-! ## The 32-bit arithmetic of the directory (C20) -/

/-- C20: for every header count `N` that `Open` reads, the end of the
directory scan and the start of the value region are both
`(4 + 59 * N) mod 2 ^ 32`: they are `4 + 59 * N` exactly when `N` is at most
72796055, and a smaller address for every larger `N`. -/
theorem Open_directory_arithmetic (path : String) (fb : Slice) (N : Nat)
    (hne : fb.elems.length ≠ 0) (hcount : (fb.slice 0 4 >>= Uint32) = .ok N) :
    Open path fb false false =
      (openLoop fb ((4 + 59 * N) % 2 ^ 32) ((4 + 59 * N) % 2 ^ 32) (2 ^ 32) 4 [] >>= fun keys =>
        .ok { Path := path, Size := fb.elems.length, Keys := keys, KeysCount := N }) ∧
    ((4 + 59 * N) % 2 ^ 32 = 4 + 59 * N ↔ N ≤ 72796055) ∧
    (72796055 < N → (4 + 59 * N) % 2 ^ 32 < 4 + 59 * N) := by
  refine ⟨?_, by omega, by omega⟩
  have hend : (4 + N * KEY_SIZE % 2 ^ 32) % 2 ^ 32 = (4 + 59 * N) % 2 ^ 32 := by
    unfold KEY_SIZE; omega
  unfold Open
  simp only [Bool.and_self, Bool.false_eq_true, if_false, hne, hcount, Res.ok_bind, hend]
  rfl

/-- C20, witness: the file `sampleFile`, with header count 1. -/
theorem Open_directory_arithmetic_witness :
    sampleFile.length ≠ 0 ∧ ((Slice.mk sampleFile []).slice 0 4 >>= Uint32) = .ok 1 ∧
    Open "db" ⟨sampleFile, []⟩ false false =
      (openLoop ⟨sampleFile, []⟩ ((4 + 59 * 1) % 2 ^ 32) ((4 + 59 * 1) % 2 ^ 32) (2 ^ 32) 4 [] >>=
        fun keys =>
          .ok { Path := "db", Size := sampleFile.length, Keys := keys, KeysCount := 1 }) :=
  ⟨by decide, by decide,
    (Open_directory_arithmetic "db" ⟨sampleFile, []⟩ 1 (by decide) (by decide)).1⟩

/-! ## The size invariant of loaded records (C18) -/


theorem Res.bind_eq_ok {α β : Type} (x : Res α) (f : α → Res β) (b : β)
    (h : (x >>= f) = .ok b) : ∃ a, x = .ok a ∧ f a = .ok b := by
  cases x with
  | ok a => exact ⟨a, rfl, h⟩
  | error err => cases h
  | panic => cases h
  | fuel => cases h

theorem Uint32_lt (b : List Byte) (u : Nat) (h : Uint32 b = .ok u) : u < 2 ^ 32 := by
  unfold Uint32 at h
  split at h
  · rename_i b0 b1 b2 b3 _
    cases h
    have := b0.isLt; have := b1.isLt; have := b2.isLt; have := b3.isLt
    omega
  · cases h

theorem Slice.slice_length (s : Slice) (lo hi : Nat) (v : List Byte)
    (h : s.slice lo hi = .ok v) : lo ≤ hi ∧ v.length = hi - lo := by
  unfold Slice.slice at h
  split at h
  · rename_i hc
    cases h
    refine ⟨hc.1, ?_⟩
    rw [List.length_take, List.length_drop, List.length_append]
    omega
  · cases h

theorem slice_length_wrap (s : Slice) (a n : Nat) (v : List Byte) (hn : n < 2 ^ 32)
    (h : s.slice (a % 2 ^ 32) ((a + n) % 2 ^ 32) = .ok v) : v.length = n := by
  obtain ⟨h1, h2⟩ := Slice.slice_length s _ _ v h
  omega

theorem openRow_SizeOk (fb : Slice) (r i : Nat) (key : Key) (x : Var)
    (h : openRow fb r i = .ok (key, x)) : x.SizeOk := by
  unfold openRow at h
  obtain ⟨keyBuf, _, h⟩ := Res.bind_eq_ok _ _ _ h
  obtain ⟨varType, _, h⟩ := Res.bind_eq_ok _ _ _ h
  obtain ⟨ref, _, h⟩ := Res.bind_eq_ok _ _ _ h
  obtain ⟨valueSize, hsz, h⟩ := Res.bind_eq_ok _ _ _ h
  obtain ⟨szBuf, _, hsz⟩ := Res.bind_eq_ok _ _ _ hsz
  have hlt := Uint32_lt _ _ hsz
  have hnone : ∀ (k : Key) (y : Var),
      (pure (k, ({ T := varType, R := ref, S := valueSize, V := none } : Var)) : Res (Key × Var)) =
        .ok (key, y) → y.SizeOk := by
    intro k y hy
    cases hy
    intro v hv
    cases hv
  have hsome : ∀ (n : Nat), n = valueSize →
      ((varType = TYPE_INT32 ∨ varType = TYPE_FLOAT32) → valueSize = 4) →
      ((varType = TYPE_INT64 ∨ varType = TYPE_FLOAT64) → valueSize = 8) →
      (fb.slice ((r + ref) % 2 ^ 32) ((r + ref + n) % 2 ^ 32) >>= fun v =>
        (pure (trimZero keyBuf,
          ({ T := varType, R := ref, S := valueSize, V := some v } : Var)) : Res (Key × Var))) =
        .ok (key, x) → x.SizeOk := by
    intro n hn h4 h8 hx
    obtain ⟨v, hv, hx⟩ := Res.bind_eq_ok _ _ _ hx
    cases hx
    intro w hw
    cases hw
    exact ⟨by rw [slice_length_wrap fb (r + ref) n _ (by omega) hv, hn], h4, h8⟩
  simp only at h
  split_ifs at h with c0 c4 c1 c8 c2 c3 c4' c5 c8'
  · exact hnone _ _ h
  · refine hsome 4 (by omega) (fun _ => by omega) (fun hc => ?_) h
    rcases hc with hc | hc <;> rw [c0] at hc <;> exact absurd hc (by decide)
  · exact hnone _ _ h
  · refine hsome 8 (by omega) (fun hc => ?_) (fun _ => by omega) h
    rcases hc with hc | hc <;> rw [c1] at hc <;> exact absurd hc (by decide)
  · refine hsome valueSize rfl (fun hc => ?_) (fun hc => ?_) h
    · rcases hc with hc | hc <;> rw [c2] at hc <;> exact absurd hc (by decide)
    · rcases hc with hc | hc <;> rw [c2] at hc <;> exact absurd hc (by decide)
  · exact hnone _ _ h
  · refine hsome 4 (by omega) (fun _ => by omega) (fun hc => ?_) h
    rcases hc with hc | hc <;> rw [c3] at hc <;> exact absurd hc (by decide)
  · exact hnone _ _ h
  · refine hsome 8 (by omega) (fun hc => ?_) (fun _ => by omega) h
    rcases hc with hc | hc <;> rw [c5] at hc <;> exact absurd hc (by decide)
  · exact hnone _ _ h

theorem mem_mapSet (m : List (Key × Var)) (k : Key) (x : Var) (e : Key × Var)
    (h : e ∈ mapSet m k x) : e = (k, x) ∨ e ∈ m := by
  induction m with
  | nil => simpa [mapSet] using h
  | cons e0 m ih =>
    obtain ⟨k0, w⟩ := e0
    by_cases hk : k0 = k
    · simp only [mapSet, hk, if_true, List.mem_cons] at h
      rcases h with h | h
      · exact Or.inl h
      · exact Or.inr (List.mem_cons_of_mem _ h)
    · simp only [mapSet, hk, if_false, List.mem_cons] at h
      rcases h with h | h
      · exact Or.inr (by rw [h]; exact List.mem_cons_self _ _)
      · rcases ih h with h | h
        · exact Or.inl h
        · exact Or.inr (List.mem_cons_of_mem _ h)

theorem openLoop_SizeOk (fb : Slice) (e r : Nat) :
    ∀ (budget i : Nat) (keys out : List (Key × Var)), (∀ p ∈ keys, p.2.SizeOk) →
      openLoop fb e r budget i keys = .ok out → ∀ p ∈ out, p.2.SizeOk := by
  intro budget
  induction budget with
  | zero => intro i keys out _ h; cases h
  | succ budget ih =>
    intro i keys out hkeys h
    rw [openLoop_succ] at h
    split at h
    · obtain ⟨row, hrow, h⟩ := Res.bind_eq_ok _ _ _ h
      refine ih _ _ out ?_ h
      intro p hp
      rcases mem_mapSet _ _ _ _ hp with hp | hp
      · rw [hp]
        exact openRow_SizeOk fb r i row.1 row.2 hrow
      · exact hkeys p hp
    · cases h
      exact hkeys

/-- C18: for every byte sequence on which `Open` returns a store, whatever
the spare capacity of the slice, every record of the store either has no raw
value or has a raw value of exactly `S` bytes, and a record with a raw value
has size 4 under the tags Int32 and Float32 and size 8 under the tags Int64
and Float64: a row whose size does not match its fixed width is never given a
raw value. -/
theorem Open_size_invariant (path : String) (fb : Slice) (readErr createErr : Bool) (db : DB)
    (h : Open path fb readErr createErr = .ok db) : ∀ e ∈ db.Keys, e.2.SizeOk := by
  unfold Open at h
  split at h
  · cases h
  · dsimp only at h
    split at h
    · cases h
      intro e he
      simp at he
    · obtain ⟨keysCount, _, h⟩ := Res.bind_eq_ok _ _ _ h
      obtain ⟨keys, hloop, h⟩ := Res.bind_eq_ok _ _ _ h
      cases h
      exact openLoop_SizeOk fb _ _ _ _ [] keys (fun p hp => by simp at hp) hloop

/-- C18, witness: the file `sampleFile`, and a file whose row has the tag
Int32 and the size 2. -/
theorem Open_size_invariant_witness :
    Open "db" ⟨sampleFile, []⟩ false false =
      .ok { Path := "db", Size := 65,
            Keys := [([107], { T := TYPE_STRING, R := 0, S := 2, V := some [104, 105] })],
            KeysCount := 1 } ∧
    (∀ e ∈ [(([107] : Key), ({ T := TYPE_STRING, R := 0, S := 2, V := some [104, 105] } : Var))],
      e.2.SizeOk) ∧
    Open "db" ⟨[0, 0, 0, 1] ++ layoutRow [107] TYPE_INT32 0 2 ++ [104, 105], []⟩ false false =
      .ok { Path := "db", Size := 65,
            Keys := [([107], { T := TYPE_INT32, R := 0, S := 2, V := none })],
            KeysCount := 1 } :=
  ⟨by decide,
    Open_size_invariant "db" ⟨sampleFile, []⟩ false false
      { Path := "db", Size := 65,
        Keys := [([107], { T := TYPE_STRING, R := 0, S := 2, V := some [104, 105] })],
        KeysCount := 1 } (by decide),
    by decide⟩

/-! ## The permissive load (C14) -/

theorem openRow_eq_unsliced (b spare : List Byte) (refStart i : Nat) (hi : i + 59 ≤ b.length)
    (hi32 : i + 59 < 2 ^ 32) (hs : ¬ Sliced (tagAt b (i + 50)) (numAt b (i + 55))) :
    openRow ⟨b, spare⟩ refStart i = .ok (rowKey b i, rowVar b refStart i) := by
  have m50 : (i + 50) % 2 ^ 32 = i + 50 := Nat.mod_eq_of_lt (by omega)
  have m51 : (i + 51) % 2 ^ 32 = i + 51 := Nat.mod_eq_of_lt (by omega)
  have m55 : (i + 55) % 2 ^ 32 = i + 55 := Nat.mod_eq_of_lt (by omega)
  have m59 : (i + 59) % 2 ^ 32 = i + 59 := Nat.mod_eq_of_lt (by omega)
  have s1 := Slice.slice_inside ⟨b, spare⟩ i (i + 50) (by omega) (by simp only; omega)
  have s2 := Slice.index_inside ⟨b, spare⟩ (i + 50) (by simp only; omega)
  have s3 := Slice.slice_inside ⟨b, spare⟩ (i + 51) (i + 55) (by omega) (by simp only; omega)
  have s4 := Slice.slice_inside ⟨b, spare⟩ (i + 55) (i + 59) (by omega) (by simp only; omega)
  have e3 : i + 55 - (i + 51) = 4 := by omega
  have e4 : i + 59 - (i + 55) = 4 := by omega
  have e1 : i + 50 - i = 50 := by omega
  unfold openRow
  simp only [m50, m51, m55, m59, s1, s2, s3, s4, e1, e3, e4, Res.ok_bind,
    Uint32_fieldAt b (i + 51) (by omega), Uint32_fieldAt b (i + 55) (by omega)]
  unfold rowVar rowKey
  rw [if_neg hs]
  unfold Sliced at hs
  have hstr : tagAt b (i + 50) ≠ TYPE_STRING := fun h => hs (Or.inl h)
  have h4 : (tagAt b (i + 50) = TYPE_INT32 ∨ tagAt b (i + 50) = TYPE_FLOAT32) →
      numAt b (i + 55) ≠ 4 := fun h hc => hs (Or.inr (Or.inl ⟨h, hc⟩))
  have h8 : (tagAt b (i + 50) = TYPE_INT64 ∨ tagAt b (i + 50) = TYPE_FLOAT64) →
      numAt b (i + 55) ≠ 8 := fun h hc => hs (Or.inr (Or.inr ⟨h, hc⟩))
  by_cases c0 : tagAt b (i + 50) = TYPE_INT32
  · rw [if_pos c0, if_pos (h4 (Or.inl c0))]; rfl
  · rw [if_neg c0]
    by_cases c1 : tagAt b (i + 50) = TYPE_INT64
    · rw [if_pos c1, if_pos (h8 (Or.inl c1))]; rfl
    · rw [if_neg c1, if_neg hstr]
      by_cases c3 : tagAt b (i + 50) = TYPE_FLOAT32
      · rw [if_pos c3, if_pos (h4 (Or.inr c3))]; rfl
      · rw [if_neg c3]
        by_cases c4 : tagAt b (i + 50) = TYPE_FLOAT64
        · rw [if_pos c4, if_pos (h8 (Or.inr c4))]; rfl
        · rw [if_neg c4]; rfl

theorem openRow_eq_sliced (b spare : List Byte) (refStart i : Nat) (hi : i + 59 ≤ b.length)
    (hlen : b.length < 2 ^ 32)
    (hr : Sliced (tagAt b (i + 50)) (numAt b (i + 55)) →
      refStart + numAt b (i + 51) + numAt b (i + 55) ≤ b.length) :
    openRow ⟨b, spare⟩ refStart i = .ok (rowKey b i, rowVar b refStart i) := by
  by_cases hs : Sliced (tagAt b (i + 50)) (numAt b (i + 55))
  · exact openRow_eq b spare refStart i hi (by omega) (hr hs) (by have := hr hs; omega)
  · exact openRow_eq_unsliced b spare refStart i hi (by omega) hs

theorem openLoop_rows_sliced (b spare : List Byte) (N refStart : Nat) (hlen : b.length < 2 ^ 32)
    (hdir : rowAddr N ≤ b.length)
    (hr : ∀ j < N, Sliced (tagAt b (rowAddr j + 50)) (numAt b (rowAddr j + 55)) →
      refStart + numAt b (rowAddr j + 51) + numAt b (rowAddr j + 55) ≤ b.length) :
    ∀ (n j budget : Nat), j + n = N → n < budget →
      openLoop ⟨b, spare⟩ (rowAddr N) refStart budget (rowAddr j) (loadedKeys b refStart j) =
        .ok (loadedKeys b refStart N) := by
  intro n
  induction n with
  | zero =>
    intro j budget hj hb
    obtain ⟨budget, rfl⟩ : ∃ k, budget = k + 1 := ⟨budget - 1, by omega⟩
    have : j = N := by omega
    subst this
    rw [openLoop_succ, if_neg (by omega)]
  | succ n ih =>
    intro j budget hj hb
    obtain ⟨budget, rfl⟩ : ∃ k, budget = k + 1 := ⟨budget - 1, by omega⟩
    have hlt : rowAddr j < rowAddr N := by unfold rowAddr; omega
    have hnext : (rowAddr j + KEY_SIZE) % 2 ^ 32 = rowAddr (j + 1) := by
      unfold rowAddr KEY_SIZE
      unfold rowAddr at hdir
      omega
    have hrow := openRow_eq_sliced b spare refStart (rowAddr j)
      (by unfold rowAddr at hdir ⊢; omega) hlen (hr j (by omega))
    rw [openLoop_succ, if_pos hlt, hrow, Res.ok_bind, hnext]
    exact ih (j + 1) budget (by omega) (by omega)

theorem Open_permissive_core (path : String) (b spare : List Byte) (hlen : b.length < 2 ^ 32)
    (hdir : rowAddr (numAt b 0) ≤ b.length)
    (hr : ∀ j < numAt b 0, Sliced (tagAt b (rowAddr j + 50)) (numAt b (rowAddr j + 55)) →
      rowAddr (numAt b 0) + numAt b (rowAddr j + 51) + numAt b (rowAddr j + 55) ≤ b.length) :
    Open path ⟨b, spare⟩ false false =
      .ok { Path := path, Size := b.length,
            Keys := loadedKeys b (rowAddr (numAt b 0)) (numAt b 0), KeysCount := numAt b 0 } := by
  have h4 : 4 ≤ b.length := by unfold rowAddr at hdir; omega
  have hend : (4 + numAt b 0 * KEY_SIZE % 2 ^ 32) % 2 ^ 32 = rowAddr (numAt b 0) := by
    unfold rowAddr KEY_SIZE
    unfold rowAddr at hdir
    omega
  have hloop := openLoop_rows_sliced b spare (numAt b 0) (rowAddr (numAt b 0)) hlen hdir hr
    (numAt b 0) 0 (2 ^ 32) (by omega) (by unfold rowAddr at hdir; omega)
  have h0 : rowAddr 0 = 4 := rfl
  rw [h0] at hloop
  simp only [loadedKeys] at hloop
  rw [Open_eq_loop path b spare h4, hend, hloop]
  rfl


theorem not_Sliced_of_Mismatched (tag : Byte) (size : Nat) (h : Mismatched tag size) :
    ¬ Sliced tag size := by
  unfold Mismatched at h
  unfold Sliced
  rcases h with ⟨h | h, hs⟩ | ⟨h | h, hs⟩ <;> subst h <;>
    simp [TYPE_INT32, TYPE_INT64, TYPE_STRING, TYPE_FLOAT32, TYPE_FLOAT64, hs]

theorem tagAt_take (b : List Byte) (lo q : Nat) (h : q < lo) :
    tagAt (b.take lo) q = tagAt b q := by
  unfold tagAt
  rw [List.getD_eq_getElem?_getD, List.getD_eq_getElem?_getD, List.getElem?_take, if_pos h]

theorem tagAt_drop (b : List Byte) (hi q : Nat) (h : hi ≤ q) :
    tagAt (b.drop hi) (q - hi) = tagAt b q := by
  unfold tagAt
  rw [List.getD_eq_getElem?_getD, List.getD_eq_getElem?_getD, List.getElem?_drop]
  congr 2
  omega

theorem fieldAt_take (b : List Byte) (lo p n : Nat) (h : p + n ≤ lo) :
    fieldAt (b.take lo) p n = fieldAt b p n := by
  unfold fieldAt
  rw [List.drop_take, List.take_take]
  congr 1
  omega

theorem fieldAt_drop (b : List Byte) (hi p n : Nat) (h : hi ≤ p) :
    fieldAt (b.drop hi) (p - hi) n = fieldAt b p n := by
  unfold fieldAt
  rw [List.drop_drop]
  congr 2
  omega

theorem SameOutside.tagAt_eq (b c : List Byte) (lo hi q : Nat) (h : SameOutside b c lo hi)
    (hq : q < lo ∨ hi ≤ q) : tagAt b q = tagAt c q := by
  rcases hq with hq | hq
  · rw [← tagAt_take b lo q hq, ← tagAt_take c lo q hq, h.2.1]
  · rw [← tagAt_drop b hi q hq, ← tagAt_drop c hi q hq, h.2.2]

theorem SameOutside.numAt_eq (b c : List Byte) (lo hi p : Nat) (h : SameOutside b c lo hi)
    (hp : p + 4 ≤ lo ∨ hi ≤ p) : numAt b p = numAt c p := by
  unfold numAt
  rw [SameOutside.tagAt_eq b c lo hi p h (by omega),
    SameOutside.tagAt_eq b c lo hi (p + 1) h (by omega),
    SameOutside.tagAt_eq b c lo hi (p + 2) h (by omega),
    SameOutside.tagAt_eq b c lo hi (p + 3) h (by omega)]

theorem SameOutside.fieldAt_eq (b c : List Byte) (lo hi p n : Nat) (h : SameOutside b c lo hi)
    (hp : p + n ≤ lo ∨ hi ≤ p) : fieldAt b p n = fieldAt c p n := by
  rcases hp with hp | hp
  · rw [← fieldAt_take b lo p n hp, ← fieldAt_take c lo p n hp, h.2.1]
  · rw [← fieldAt_drop b hi p n hp, ← fieldAt_drop c hi p n hp, h.2.2]

theorem mapGet_mapSet (m : List (Key × Var)) (k k' : Key) (v : Var) :
    mapGet (mapSet m k v) k' = if k = k' then some v else mapGet m k' := by
  by_cases h : k = k'
  · subst h; rw [if_pos rfl, mapGet_mapSet_self]
  · rw [if_neg h, mapGet_mapSet_ne _ _ _ _ h]

theorem loadedKeys_same (b c : List Byte) (j N : Nat) (hj : j < N)
    (h : SameOutside b c (rowAddr j + 55) (rowAddr j + 59)) (k : Key)
    (hk : k ≠ rowKey b (rowAddr j)) :
    ∀ n, n ≤ N →
      mapGet (loadedKeys b (rowAddr N) n) k = mapGet (loadedKeys c (rowAddr N) n) k := by
  intro n
  induction n with
  | zero => intro _; rfl
  | succ n ih =>
    intro hn
    have hkey : rowKey b (rowAddr n) = rowKey c (rowAddr n) := by
      unfold rowKey
      rw [SameOutside.fieldAt_eq b c _ _ (rowAddr n) 50 h (by unfold rowAddr; omega)]
    simp only [loadedKeys, mapGet_mapSet, ← hkey]
    by_cases hnj : n = j
    · subst hnj
      rw [if_neg (Ne.symm hk), if_neg (Ne.symm hk)]
      exact ih (by omega)
    · have htag : tagAt b (rowAddr n + 50) = tagAt c (rowAddr n + 50) :=
        SameOutside.tagAt_eq b c _ _ _ h (by unfold rowAddr; omega)
      have hR : numAt b (rowAddr n + 51) = numAt c (rowAddr n + 51) :=
        SameOutside.numAt_eq b c _ _ _ h (by unfold rowAddr; omega)
      have hS : numAt b (rowAddr n + 55) = numAt c (rowAddr n + 55) :=
        SameOutside.numAt_eq b c _ _ _ h (by unfold rowAddr; omega)
      have hV : fieldAt b (rowAddr N + numAt b (rowAddr n + 51)) (numAt b (rowAddr n + 55)) =
          fieldAt c (rowAddr N + numAt b (rowAddr n + 51)) (numAt b (rowAddr n + 55)) :=
        SameOutside.fieldAt_eq b c _ _ _ _ h (by unfold rowAddr; omega)
      have hvar : rowVar b (rowAddr N) (rowAddr n) = rowVar c (rowAddr N) (rowAddr n) := by
        unfold rowVar
        rw [← htag, ← hR, ← hS, hV]
      rw [hvar, ih (by omega)]


/-- C14, amended: for every byte sequence `b` of fewer than `2 ^ 32` bytes
whose directory is fully present and whose other rows reference in-range value
bytes, a row `j` with a fixed-width tag and a size that is not its width does
not make `Open` fail, whatever the row's offset: `Open` succeeds; the key of
row `j` (when no later row repeats it) is registered with the row's tag,
offset and size and no raw value; every row (whose key no later row repeats)
is registered with the record that its own bytes and the value region give;
and for every byte sequence `c` that differs from `b` in the size field of
row `j` only and whose row `j` is in range, `Open` of `c` succeeds and gives,
under every key other than the key of row `j`, what `Open` of `b` gives. -/
theorem Open_permissive (path : String) (b spare : List Byte) (j : Nat)
    (hlen : b.length < 2 ^ 32) (hdir : rowAddr (numAt b 0) ≤ b.length) (hj : j < numAt b 0)
    (hmis : Mismatched (tagAt b (rowAddr j + 50)) (numAt b (rowAddr j + 55)))
    (hr : ∀ i < numAt b 0, i ≠ j → rowAddr (numAt b 0) + numAt b (rowAddr i + 51) +
      numAt b (rowAddr i + 55) ≤ b.length) :
    ∃ db, Open path ⟨b, spare⟩ false false = .ok db ∧
      ((∀ i, j < i → i < numAt b 0 → rowKey b (rowAddr i) ≠ rowKey b (rowAddr j)) →
        mapGet db.Keys (rowKey b (rowAddr j)) =
          some { T := tagAt b (rowAddr j + 50), R := numAt b (rowAddr j + 51),
                 S := numAt b (rowAddr j + 55), V := none }) ∧
      (∀ i < numAt b 0,
        (∀ i', i < i' → i' < numAt b 0 → rowKey b (rowAddr i') ≠ rowKey b (rowAddr i)) →
        mapGet db.Keys (rowKey b (rowAddr i)) =
          some (rowVar b (rowAddr (numAt b 0)) (rowAddr i))) ∧
      (∀ c, SameOutside b c (rowAddr j + 55) (rowAddr j + 59) →
        rowAddr (numAt b 0) + numAt c (rowAddr j + 51) + numAt c (rowAddr j + 55) ≤ c.length →
        ∃ dc, Open path ⟨c, spare⟩ false false = .ok dc ∧
          ∀ k, k ≠ rowKey b (rowAddr j) → mapGet db.Keys k = mapGet dc.Keys k) := by
  have hns := not_Sliced_of_Mismatched _ _ hmis
  have hr' : ∀ i < numAt b 0, Sliced (tagAt b (rowAddr i + 50)) (numAt b (rowAddr i + 55)) →
      rowAddr (numAt b 0) + numAt b (rowAddr i + 51) + numAt b (rowAddr i + 55) ≤ b.length := by
    intro i hi hs
    by_cases hij : i = j
    · subst hij; exact absurd hs hns
    · exact hr i hi hij
  refine ⟨_, Open_permissive_core path b spare hlen hdir hr', ?_, ?_, ?_⟩
  · intro hlast
    rw [loadedKeys_get b _ _ j hj hlast]
    simp only [rowVar, if_neg hns]
  · intro i hi hlast
    exact loadedKeys_get b _ _ i hi hlast
  · intro c hc hcj
    have hN : numAt b 0 = numAt c 0 :=
      SameOutside.numAt_eq b c _ _ 0 hc (by unfold rowAddr; omega)
    have hrc : ∀ i < numAt c 0, Sliced (tagAt c (rowAddr i + 50)) (numAt c (rowAddr i + 55)) →
        rowAddr (numAt c 0) + numAt c (rowAddr i + 51) + numAt c (rowAddr i + 55) ≤
          c.length := by
      intro i hi _
      rw [← hN] at hi ⊢
      by_cases hij : i = j
      · subst hij; exact hcj
      · rw [← SameOutside.numAt_eq b c _ _ (rowAddr i + 51) hc (by unfold rowAddr; omega),
          ← SameOutside.numAt_eq b c _ _ (rowAddr i + 55) hc (by unfold rowAddr; omega),
          ← hc.1]
        exact hr i hi hij
    refine ⟨_, Open_permissive_core path c spare (by rw [← hc.1]; exact hlen)
      (by rw [← hN, ← hc.1]; exact hdir) hrc, ?_⟩
    intro k hk
    simp only
    rw [← hN]
    exact loadedKeys_same b c j (numAt b 0) hj hc k hk (numAt b 0) (Nat.le_refl _)

/-- C14, witness: the file `mismatchFile`, whose only row has the tag Int32,
the size 2 and an offset beyond the end of the file. -/
theorem Open_permissive_witness :
    mismatchFile.length < 2 ^ 32 ∧
    Mismatched (tagAt mismatchFile (rowAddr 0 + 50)) (numAt mismatchFile (rowAddr 0 + 55)) ∧
    mismatchFile.length <
      rowAddr (numAt mismatchFile 0) + numAt mismatchFile (rowAddr 0 + 51) ∧
    ∃ db, Open "db" ⟨mismatchFile, []⟩ false false = .ok db ∧
      ((∀ i, 0 < i → i < numAt mismatchFile 0 →
          rowKey mismatchFile (rowAddr i) ≠ rowKey mismatchFile (rowAddr 0)) →
        mapGet db.Keys (rowKey mismatchFile (rowAddr 0)) =
          some { T := tagAt mismatchFile (rowAddr 0 + 50),
                 R := numAt mismatchFile (rowAddr 0 + 51),
                 S := numAt mismatchFile (rowAddr 0 + 55), V := none }) := by
  obtain ⟨db, h1, h2, _⟩ := Open_permissive "db" mismatchFile [] 0 (by decide) (by decide)
    (by decide) (by decide) (by decide)
  exact ⟨by decide, by decide, by decide, db, h1, h2⟩

theorem wrapMismatchFile_length : wrapMismatchFile.length = 4294967308 := by
  unfold wrapMismatchFile
  rw [List.length_append, List.length_append, List.length_append, List.length_append,
    List.length_replicate, layoutRow_length _ _ _ _ (by decide),
    layoutRow_length _ _ _ _ (by decide)]
  rfl

theorem wrapMismatchFile_row :
    openRow ⟨wrapMismatchFile, []⟩ 12 4 =
      .ok ([2], { T := TYPE_STRING, R := 0, S := 0, V := some [] }) := by
  have hL := wrapMismatchFile_length
  have h55 : numAt wrapMismatchFile 55 = 0 := by decide
  have h59 : numAt wrapMismatchFile 59 = 0 := by decide
  have hrow := openRow_eq wrapMismatchFile [] 12 4 (by omega) (by omega)
    (by rw [h55, h59, hL]; omega) (by rw [h55, h59]; omega)
  have hkey : rowKey wrapMismatchFile 4 = [2] := by decide
  have hvar : rowVar wrapMismatchFile 12 4 =
      { T := TYPE_STRING, R := 0, S := 0, V := some [] } := by decide
  rw [hkey, hvar] at hrow
  exact hrow

theorem wrapMismatchFile_loop :
    openLoop ⟨wrapMismatchFile, []⟩ 12 12 (4294967294 + 1 + 1) 4 [] =
      .ok [([2], { T := TYPE_STRING, R := 0, S := 0, V := some [] })] := by
  rw [openLoop_succ, if_pos (by decide), wrapMismatchFile_row, Res.ok_bind, openLoop_succ,
    if_neg (by decide)]
  rfl

theorem wrapMismatchFile_Open :
    Open "db" ⟨wrapMismatchFile, []⟩ false false =
      .ok { Path := "db", Size := 4294967308,
            Keys := [([2], { T := TYPE_STRING, R := 0, S := 0, V := some [] })],
            KeysCount := 72796056 } := by
  have hL := wrapMismatchFile_length
  have hN : numAt wrapMismatchFile 0 = 72796056 := by decide
  have hend : (4 + 72796056 * KEY_SIZE % 2 ^ 32) % 2 ^ 32 = 12 := by decide
  have hbudget : (2 : Nat) ^ 32 = 4294967294 + 1 + 1 := by norm_num
  rw [Open_eq_loop "db" wrapMismatchFile [] (by omega), hN, hend, hbudget,
    wrapMismatchFile_loop, hL]
  rfl

theorem wrapMismatchFile_row1 :
    rowKey wrapMismatchFile (rowAddr 1) = [1] ∧
    tagAt wrapMismatchFile (rowAddr 1 + 50) = TYPE_INT32 ∧
    numAt wrapMismatchFile (rowAddr 1 + 51) = 0 ∧
    numAt wrapMismatchFile (rowAddr 1 + 55) = 0 := by
  have hA : ([4, 86, 199, 152] ++ layoutRow [2] TYPE_STRING 0 0 : List Byte).length = 63 := by
    decide
  have h := row_fields ([4, 86, 199, 152] ++ layoutRow [2] TYPE_STRING 0 0)
    (List.replicate (59 * 72796054) (0 : Byte) ++ []) [1] TYPE_INT32 0 0 (by decide)
  rw [hA] at h
  obtain ⟨h1, h2, h3, h4⟩ := h
  have e : rowAddr 1 = 63 := rfl
  rw [e]
  unfold wrapMismatchFile
  refine ⟨?_, h2, h3, h4⟩
  unfold rowKey
  rw [h1]
  decide

theorem wrapMismatchFile_zero (q : Nat) (h1 : 122 ≤ q) (h2 : q < 4294967308) :
    tagAt wrapMismatchFile q = 0 := by
  have hA : (([4, 86, 199, 152] ++ layoutRow [2] TYPE_STRING 0 0) ++
      layoutRow [1] TYPE_INT32 0 0 : List Byte).length = 122 := by
    rw [List.length_append, List.length_append, layoutRow_length _ _ _ _ (by decide),
      layoutRow_length _ _ _ _ (by decide)]
    rfl
  unfold wrapMismatchFile
  rw [← List.append_assoc]
  exact tagAt_zeros _ _ _ q (by omega) (by omega)

theorem wrapMismatchFile_num_zero (p : Nat) (h1 : 122 ≤ p) (h2 : p + 3 < 4294967308) :
    numAt wrapMismatchFile p = 0 := by
  unfold numAt
  rw [wrapMismatchFile_zero p h1 (by omega), wrapMismatchFile_zero (p + 1) (by omega) (by omega),
    wrapMismatchFile_zero (p + 2) (by omega) (by omega),
    wrapMismatchFile_zero (p + 3) (by omega) h2]
  rfl

theorem wrapMismatchFile_later_key (i : Nat) (h1 : 1 < i) (h2 : i < 72796056) :
    rowKey wrapMismatchFile (rowAddr i) = [] := by
  have hA : (([4, 86, 199, 152] ++ layoutRow [2] TYPE_STRING 0 0) ++
      layoutRow [1] TYPE_INT32 0 0 : List Byte).length = 122 := by
    rw [List.length_append, List.length_append, layoutRow_length _ _ _ _ (by decide),
      layoutRow_length _ _ _ _ (by decide)]
    rfl
  have hf : fieldAt wrapMismatchFile (rowAddr i) 50 = List.replicate 50 0 := by
    unfold wrapMismatchFile
    rw [← List.append_assoc]
    exact fieldAt_zeros _ _ _ _ 50 (by unfold rowAddr; omega) (by unfold rowAddr; omega)
  unfold rowKey
  rw [hf]
  decide

/-- C14, counterexample: `wrapMismatchFile` has header count `N = 72796056`
and holds its whole directory; its row 1 has the key `01`, which no later row
repeats, the tag Int32 and the size 0, and every other row is in range.
`Open` computes the end of the directory in 32 bits, as 12, reads row 0 only
and registers nothing under the key `01`. -/
theorem Open_permissive_wraps_counterexample :
    numAt wrapMismatchFile 0 = 72796056 ∧ rowAddr 72796056 ≤ wrapMismatchFile.length ∧
    rowKey wrapMismatchFile (rowAddr 1) = [1] ∧
    Mismatched (tagAt wrapMismatchFile (rowAddr 1 + 50))
      (numAt wrapMismatchFile (rowAddr 1 + 55)) ∧
    (∀ i < 72796056, i ≠ 1 → rowAddr 72796056 + numAt wrapMismatchFile (rowAddr i + 51) +
      numAt wrapMismatchFile (rowAddr i + 55) ≤ wrapMismatchFile.length) ∧
    (∀ i, 1 < i → i < 72796056 →
      rowKey wrapMismatchFile (rowAddr i) ≠ rowKey wrapMismatchFile (rowAddr 1)) ∧
    ∃ db, Open "db" ⟨wrapMismatchFile, []⟩ false false = .ok db ∧ mapGet db.Keys [1] = none := by
  have hL := wrapMismatchFile_length
  obtain ⟨hk1, ht1, _, hs1⟩ := wrapMismatchFile_row1
  refine ⟨by decide, by rw [hL]; decide, hk1, by rw [ht1, hs1]; decide, ?_, ?_,
    _, wrapMismatchFile_Open, rfl⟩
  · intro i hi hne
    rcases Nat.eq_zero_or_pos i with h0 | hpos
    · subst h0
      have h55 : numAt wrapMismatchFile (rowAddr 0 + 51) = 0 := by decide
      have h59 : numAt wrapMismatchFile (rowAddr 0 + 55) = 0 := by decide
      rw [h55, h59, hL]; decide
    · rw [wrapMismatchFile_num_zero _ (by unfold rowAddr; omega) (by unfold rowAddr; omega),
        wrapMismatchFile_num_zero _ (by unfold rowAddr; omega) (by unfold rowAddr; omega), hL]
      decide
  · intro i h1 h2
    rw [wrapMismatchFile_later_key i h1 h2, hk1]
    decide

/-! ## The visiting order of `Sync` (C17) -/


theorem loadedKeys_none (b : List Byte) (refStart : Nat) (k : Key) :
    ∀ n, (∀ j < n, rowKey b (rowAddr j) ≠ k) → mapGet (loadedKeys b refStart n) k = none := by
  intro n
  induction n with
  | zero => intro _; rfl
  | succ n ih =>
    intro h
    unfold loadedKeys
    rw [mapGet_mapSet_ne _ _ _ _ (h n (by omega))]
    exact ih (fun j hj => h j (by omega))

theorem Open_fileOf_content (path : String) (es : List (Key × Var)) (spare : List Byte)
    (hk : ∀ e ∈ es, KeyFits e.1) (hz : ∀ e ∈ es, NoEdgeZero e.1) (hs : ∀ e ∈ es, e.2.Sound)
    (hn : (es.map Prod.fst).Nodup) (hsize : 4 + 59 * es.length + totalSize es < 2 ^ 32) :
    ∃ db, Open path ⟨fileOf es, spare⟩ false false = .ok db ∧
      (∀ e ∈ es, ∃ x, mapGet db.Keys e.1 = some x ∧
        x.content = (e.2.T, e.2.bytes.length, some e.2.bytes)) ∧
      (∀ k, k ∉ es.map Prod.fst → mapGet db.Keys k = none) := by
  have hN : numAt (fileOf es) 0 = es.length := fileOf_count es (by omega)
  have hL := fileOf_length es hk
  have hopen := Open_wellformed path (fileOf es) spare (by omega)
    (by rw [hN, hL]; unfold rowAddr; omega)
    (by
      intro j hj
      rw [hN] at hj ⊢
      obtain ⟨_, _, h3, h4, _, h6⟩ := fileOf_row_at es j hj hk hsize
      rw [h3, h4, hL]; unfold rowAddr; omega)
  have hkey : ∀ j' (hj' : j' < es.length), rowKey (fileOf es) (rowAddr j') = es[j'].1 := by
    intro j' hj'
    rw [(fileOf_row_at es j' hj' hk hsize).1]
    exact trimZero_padKey _ (hz _ (List.getElem_mem _))
  refine ⟨_, hopen, ?_, ?_⟩
  · intro e he
    obtain ⟨j, hj, hej⟩ := List.getElem_of_mem he
    obtain ⟨_, h2, h3, h4, h5, _⟩ := fileOf_row_at es j hj hk hsize
    have hget := loadedKeys_get (fileOf es) (rowAddr (numAt (fileOf es) 0))
      (numAt (fileOf es) 0) j (by rw [hN]; exact hj)
      (by
        intro j' h1 h2
        rw [hN] at h2
        rw [hkey j' h2, hkey j hj]
        intro heq
        have := (@List.Nodup.getElem_inj_iff _ _ hn j' (by simpa using h2) j
          (by simpa using hj)).1 (by simpa using heq)
        omega)
    rw [hkey j hj, hej] at hget
    refine ⟨_, hget, ?_⟩
    simp only [Var.content, rowVar]
    rw [h2, h4, hN, h3, if_pos (Sliced_of_Sound _ (hs _ (List.getElem_mem _))), h5, hej]
  · intro k hk'
    simp only
    apply loadedKeys_none
    intro j hj
    rw [hN] at hj
    rw [hkey j hj]
    intro heq
    exact hk' (List.mem_map.2 ⟨es[j], List.getElem_mem _, heq⟩)

theorem mapGet_none_of_not_mem (m : List (Key × Var)) (k : Key) (h : k ∉ m.map Prod.fst) :
    mapGet m k = none := by
  cases hm : mapGet m k with
  | none => rfl
  | some x => exact absurd (List.mem_map.2 ⟨(k, x), mem_of_mapGet m k x hm, rfl⟩) h

theorem Open_fileOf_perm (path : String) (m es : List (Key × Var)) (spare : List Byte)
    (hperm : es.Perm m) (hk : ∀ e ∈ m, KeyFits e.1) (hz : ∀ e ∈ m, NoEdgeZero e.1)
    (hs : ∀ e ∈ m, e.2.Sound) (hn : (m.map Prod.fst).Nodup)
    (hsize : 4 + 59 * m.length + totalSize m < 2 ^ 32) :
    ∃ db, Open path ⟨fileOf es, spare⟩ false false = .ok db ∧
      ∀ k, (mapGet db.Keys k).map Var.content =
        (mapGet m k).map (fun x => (x.T, x.bytes.length, some x.bytes)) := by
  obtain ⟨db, hopen, hin, hout⟩ := Open_fileOf_content path es spare
    (fun e he => hk e (hperm.mem_iff.1 he)) (fun e he => hz e (hperm.mem_iff.1 he))
    (fun e he => hs e (hperm.mem_iff.1 he)) ((hperm.map Prod.fst).nodup_iff.2 hn)
    (by rw [hperm.length_eq, totalSize_perm _ _ hperm]; exact hsize)
  refine ⟨db, hopen, fun k => ?_⟩
  cases hm : mapGet m k with
  | none =>
    have hnot : k ∉ es.map Prod.fst := by
      intro hmem
      obtain ⟨e, he, hek⟩ := List.mem_map.1 hmem
      have := mapGet_of_mem m hn e.1 e.2 (hperm.mem_iff.1 he)
      rw [hek, hm] at this
      cases this
    rw [hout k hnot]
    rfl
  | some x =>
    have hmem : (k, x) ∈ es := hperm.mem_iff.2 (mem_of_mapGet m k x hm)
    obtain ⟨y, hy, hc⟩ := hin _ hmem
    rw [hy]
    simp only [Option.map_some', hc]

/-- C17, amended: for every store whose keys have 1 to 50 bytes and neither
begin nor end with a zero byte, whose records carry one of the five tags with
a raw value of the tag's width and a matching size (as `Set` writes them for
supported values and `Open` for rows that it slices), and whose file
`4 + 59 * N + total value bytes` is below `2 ^ 32`: for any two orders in
which `Sync` may visit the entries, both byte sequences are written and both
load, and the two loaded stores have the same keys and, under each key, the
same type tag, size and raw value. -/
theorem Sync_order_irrelevant (path : String) (db : DB) (o1 o2 : List (Key × Var))
    (spare1 spare2 : List Byte) (hn : (db.Keys.map Prod.fst).Nodup)
    (hkeys : ∀ e ∈ db.Keys, KeyFits e.1 ∧ NoEdgeZero e.1) (hrec : ∀ e ∈ db.Keys, e.2.Sound)
    (hsize : 4 + 59 * db.Keys.length + totalSize db.Keys < 2 ^ 32)
    (h1 : o1.Perm db.Keys) (h2 : o2.Perm db.Keys) :
    ∃ bytes1 bytes2 d1 d2,
      db.Sync o1 none = .ok bytes1 ∧ db.Sync o2 none = .ok bytes2 ∧
      Open path ⟨bytes1, spare1⟩ false false = .ok d1 ∧
      Open path ⟨bytes2, spare2⟩ false false = .ok d2 ∧
      ∀ k, (mapGet d1.Keys k).map Var.content = (mapGet d2.Keys k).map Var.content := by
  have hk : ∀ e ∈ db.Keys, KeyFits e.1 := fun e he => (hkeys e he).1
  have hz : ∀ e ∈ db.Keys, NoEdgeZero e.1 := fun e he => (hkeys e he).2
  have hs1 := Sync_eq_layout db o1 h1.length_eq (fun e he => hk e (h1.mem_iff.1 he))
    (fun e he => hrec e (h1.mem_iff.1 he))
  have hs2 := Sync_eq_layout db o2 h2.length_eq (fun e he => hk e (h2.mem_iff.1 he))
    (fun e he => hrec e (h2.mem_iff.1 he))
  obtain ⟨d1, hd1, hc1⟩ := Open_fileOf_perm path db.Keys o1 spare1 h1 hk hz hrec hn hsize
  obtain ⟨d2, hd2, hc2⟩ := Open_fileOf_perm path db.Keys o2 spare2 h2 hk hz hrec hn hsize
  exact ⟨_, _, d1, d2, hs1, hs2, hd1, hd2, fun k => by rw [hc1 k, hc2 k]⟩



set_option maxRecDepth 20000 in
theorem zeroTailStore_forward :
    ∃ bytes d, zeroTailStore.Sync zeroTailStore.Keys none = .ok bytes ∧
      Open "db" ⟨bytes, []⟩ false false = .ok d ∧
      mapGet d.Keys [97] = some { T := TYPE_INT32, R := 4, S := 4, V := some [0, 0, 0, 2] } :=
  ⟨_, _, rfl, rfl, rfl⟩

set_option maxRecDepth 20000 in
theorem zeroTailStore_backward :
    ∃ bytes d, zeroTailStore.Sync zeroTailStore.Keys.reverse none = .ok bytes ∧
      Open "db" ⟨bytes, []⟩ false false = .ok d ∧
      mapGet d.Keys [97] = some { T := TYPE_INT32, R := 4, S := 4, V := some [0, 0, 0, 1] } :=
  ⟨_, _, rfl, rfl, rfl⟩

/-- C17, counterexample: the store with the keys `61` and `61 00`, both of 1
to 50 bytes, set to the int32 values 1 and 2.  Both visiting orders are
written and load; the two rows have the same key after trimming, so the
record under the key `61` is the one of the row visited last: the value 2 in
the one order, the value 1 in the other. -/
theorem Sync_order_matters_counterexample :
    (∀ e ∈ zeroTailStore.Keys, KeyFits e.1) ∧
    zeroTailStore.Keys.reverse.Perm zeroTailStore.Keys ∧
    ∃ bytes1 bytes2 d1 d2,
      zeroTailStore.Sync zeroTailStore.Keys none = .ok bytes1 ∧
      zeroTailStore.Sync zeroTailStore.Keys.reverse none = .ok bytes2 ∧
      Open "db" ⟨bytes1, []⟩ false false = .ok d1 ∧
      Open "db" ⟨bytes2, []⟩ false false = .ok d2 ∧
      (mapGet d1.Keys [97]).map Var.content ≠ (mapGet d2.Keys [97]).map Var.content := by
  obtain ⟨bytes1, d1, hs1, ho1, hg1⟩ := zeroTailStore_forward
  obtain ⟨bytes2, d2, hs2, ho2, hg2⟩ := zeroTailStore_backward
  refine ⟨by decide, List.reverse_perm _, bytes1, bytes2, d1, d2, hs1, hs2, ho1, ho2, ?_⟩
  rw [hg1, hg2]
  decide

/-- C17, witness: the store with the keys "a" and "b", visited in the order
of the map and in the reverse order. -/
theorem Sync_order_irrelevant_witness :
    (twoKeyStore.Keys.map Prod.fst).Nodup ∧
    (∀ e ∈ twoKeyStore.Keys, KeyFits e.1 ∧ NoEdgeZero e.1) ∧
    (∀ e ∈ twoKeyStore.Keys, e.2.Sound) ∧
    ∃ bytes1 bytes2 d1 d2,
      twoKeyStore.Sync twoKeyStore.Keys none = .ok bytes1 ∧
      twoKeyStore.Sync twoKeyStore.Keys.reverse none = .ok bytes2 ∧
      Open "db" ⟨bytes1, []⟩ false false = .ok d1 ∧
      Open "db" ⟨bytes2, []⟩ false false = .ok d2 ∧
      ∀ k, (mapGet d1.Keys k).map Var.content = (mapGet d2.Keys k).map Var.content :=
  ⟨by decide, by decide, by decide,
    Sync_order_irrelevant "db" twoKeyStore twoKeyStore.Keys twoKeyStore.Keys.reverse [] []
      (by decide) (by decide) (by decide) (by decide) (List.Perm.refl _) (List.reverse_perm _)⟩

/-! ## Files on which `Open` panics (C8) -/

theorem openRow_string_panic (b spare : List Byte) (refStart i : Nat) (hi : i + 59 ≤ b.length)
    (hi32 : i + 59 < 2 ^ 32) (htag : tagAt b (i + 50) = TYPE_STRING)
    (hbad : ¬ ((refStart + numAt b (i + 51)) % 2 ^ 32 ≤
      (refStart + numAt b (i + 51) + numAt b (i + 55)) % 2 ^ 32)) :
    openRow ⟨b, spare⟩ refStart i = .panic := by
  have m50 : (i + 50) % 2 ^ 32 = i + 50 := Nat.mod_eq_of_lt (by omega)
  have m51 : (i + 51) % 2 ^ 32 = i + 51 := Nat.mod_eq_of_lt (by omega)
  have m55 : (i + 55) % 2 ^ 32 = i + 55 := Nat.mod_eq_of_lt (by omega)
  have m59 : (i + 59) % 2 ^ 32 = i + 59 := Nat.mod_eq_of_lt (by omega)
  have s1 := Slice.slice_inside ⟨b, spare⟩ i (i + 50) (by omega) (by simp only; omega)
  have s2 := Slice.index_inside ⟨b, spare⟩ (i + 50) (by simp only; omega)
  have s3 := Slice.slice_inside ⟨b, spare⟩ (i + 51) (i + 55) (by omega) (by simp only; omega)
  have s4 := Slice.slice_inside ⟨b, spare⟩ (i + 55) (i + 59) (by omega) (by simp only; omega)
  have e3 : i + 55 - (i + 51) = 4 := by omega
  have e4 : i + 59 - (i + 55) = 4 := by omega
  have e1 : i + 50 - i = 50 := by omega
  have hslice : (Slice.mk b spare).slice ((refStart + numAt b (i + 51)) % 2 ^ 32)
      ((refStart + numAt b (i + 51) + numAt b (i + 55)) % 2 ^ 32) = .panic := by
    unfold Slice.slice
    rw [if_neg (fun h => hbad h.1)]
  unfold openRow
  simp only [m50, m51, m55, m59, s1, s2, s3, s4, e1, e3, e4, Res.ok_bind,
    Uint32_fieldAt b (i + 51) (by omega), Uint32_fieldAt b (i + 55) (by omega), htag]
  rw [if_pos trivial, hslice]
  rfl

theorem straddleFile_length : straddleFile.length = 4294967297 := by
  unfold straddleFile
  rw [List.length_append, List.length_append, List.length_append, List.length_replicate,
    layoutRow_length _ _ _ _ (by decide)]
  rfl

theorem straddleFile_Open : Open "db" ⟨straddleFile, []⟩ false false = .panic := by
  have hL := straddleFile_length
  have hN : numAt straddleFile 0 = 1 := by decide
  have h55 : numAt straddleFile 55 = 4294967232 := by decide
  have h59 : numAt straddleFile 59 = 2 := by decide
  have hrow := openRow_string_panic straddleFile [] 63 4 (by omega) (by omega) (by decide)
    (by rw [h55, h59]; decide)
  have hend : (4 + 1 * KEY_SIZE % 2 ^ 32) % 2 ^ 32 = 63 := by decide
  have hbudget : (2 : Nat) ^ 32 = 4294967295 + 1 := by norm_num
  rw [Open_eq_loop "db" straddleFile [] (by omega), hN, hend, hbudget, openLoop_succ,
    if_pos (by decide), hrow]
  rfl

/-- C8, counterexample: the four bytes `00 00 00 01` announce one directory
row and hold none; `Open` panics, in the slice expression for the key field
when the slice has no spare capacity, and in the index expression for the
type tag when it has.  And `straddleFile`, of `2 ^ 32 + 1` bytes, holds its
directory and the range of its one row, yet `Open` panics on it: the start of
the range, `2 ^ 32 - 1`, fits 32 bits and its end, `2 ^ 32 + 1`, wraps to 1. -/
theorem Open_panics_on_truncated_counterexample :
    Open "db" ⟨[0, 0, 0, 1], []⟩ false false = .panic ∧
    Open "db" ⟨[0, 0, 0, 1], List.replicate 60 0⟩ false false = .panic ∧
    rowAddr (numAt straddleFile 0) ≤ straddleFile.length ∧
    rowAddr (numAt straddleFile 0) + numAt straddleFile (rowAddr 0 + 51) +
      numAt straddleFile (rowAddr 0 + 55) ≤ straddleFile.length ∧
    Open "db" ⟨straddleFile, []⟩ false false = .panic := by
  have hN : numAt straddleFile 0 = 1 := by decide
  have hR : numAt straddleFile (rowAddr 0 + 51) = 4294967232 := by decide
  have hS : numAt straddleFile (rowAddr 0 + 55) = 2 := by decide
  refine ⟨by decide, by decide, ?_, ?_, straddleFile_Open⟩
  · rw [straddleFile_length, hN]
    decide
  · rw [straddleFile_length, hN, hR, hS]
    decide


/-! ## Totality of `Open` on well-formed bytes (C8) -/

theorem Res.bind_ne_error {α β : Type} (x : Res α) (f : α → Res β)
    (hx : ∀ e, x ≠ .error e) (hf : ∀ a e, f a ≠ .error e) : ∀ e, (x >>= f) ≠ .error e := by
  intro e
  cases x with
  | ok a => exact hf a e
  | error err => exact absurd rfl (hx err)
  | panic => intro h; cases h
  | fuel => intro h; cases h

theorem Slice.slice_ne_error (s : Slice) (lo hi : Nat) : ∀ e, s.slice lo hi ≠ .error e := by
  intro e
  unfold Slice.slice
  split <;> simp

theorem Slice.index_ne_error (s : Slice) (i : Nat) : ∀ e, s.index i ≠ .error e := by
  intro e
  unfold Slice.index
  split <;> simp

theorem Uint32_ne_error (b : List Byte) : ∀ e, Uint32 b ≠ .error e := by
  intro e
  rcases Uint32_cases b with ⟨u, hu⟩ | hu <;> simp [hu]

theorem openRow_ne_error (fb : Slice) (r i : Nat) : ∀ e, openRow fb r i ≠ .error e := by
  unfold openRow
  refine Res.bind_ne_error _ _ (Slice.slice_ne_error _ _ _) (fun keyBuf => ?_)
  refine Res.bind_ne_error _ _ (Slice.index_ne_error _ _) (fun varType => ?_)
  refine Res.bind_ne_error _ _
    (Res.bind_ne_error _ _ (Slice.slice_ne_error _ _ _) (fun a => Uint32_ne_error a))
    (fun ref => ?_)
  refine Res.bind_ne_error _ _
    (Res.bind_ne_error _ _ (Slice.slice_ne_error _ _ _) (fun a => Uint32_ne_error a))
    (fun valueSize => ?_)
  simp only
  split_ifs <;>
    first
    | exact Res.bind_ne_error _ _ (Slice.slice_ne_error _ _ _) (fun v e => by simp)
    | (intro e; simp)

theorem openLoop_ne_error (fb : Slice) (e r : Nat) :
    ∀ (budget i : Nat) (keys : List (Key × Var)) (err : KeyyError),
      openLoop fb e r budget i keys ≠ .error err := by
  intro budget
  induction budget with
  | zero => intro i keys err h; cases h
  | succ budget ih =>
    intro i keys err
    rw [openLoop_succ]
    split
    · exact Res.bind_ne_error _ _ (openRow_ne_error fb r i) (fun p err' => ih _ _ err') err
    · intro h; cases h

theorem Open_ne_error (path : String) (fb : Slice) :
    ∀ err, Open path fb false false ≠ .error err := by
  unfold Open
  split
  · rename_i h; simp at h
  · dsimp only
    split
    · intro err h; cases h
    · refine Res.bind_ne_error _ _
        (Res.bind_ne_error _ _ (Slice.slice_ne_error _ _ _) (fun a => Uint32_ne_error a))
        (fun keysCount => ?_)
      exact Res.bind_ne_error _ _ (fun err => openLoop_ne_error fb _ _ _ _ _ err)
        (fun keys err => by simp)

/-- C8, amended: for the empty byte sequence, and for every byte sequence of
fewer than `2 ^ 32` bytes with header count `N`, length at least `4 + 59 * N`
and, for every row that is sliced (tag String, or a fixed-width tag with the
size of its width), the row's range inside it, `Open` after a successful read
produces a store and does not abort.  For every slice whatever, well-formed or
not: the only error `Open` returns is the storage error, when the read failed
and the file could not be created, and after a successful read `Open` either
produces a store or panics. -/
theorem Open_total_on_wellformed (path : String) (b spare : List Byte)
    (hwf : b = [] ∨ (b.length < 2 ^ 32 ∧ rowAddr (numAt b 0) ≤ b.length ∧
      ∀ j < numAt b 0, Sliced (tagAt b (rowAddr j + 50)) (numAt b (rowAddr j + 55)) →
        rowAddr (numAt b 0) + numAt b (rowAddr j + 51) + numAt b (rowAddr j + 55) ≤
          b.length)) :
    (∃ db, Open path ⟨b, spare⟩ false false = .ok db) ∧
    (∀ (fb : Slice) (readErr createErr : Bool) (e : KeyyError),
      Open path fb readErr createErr = .error e →
        e = .storage ∧ readErr = true ∧ createErr = true) ∧
    (∀ fb : Slice, (∃ db, Open path fb false false = .ok db) ∨
      Open path fb false false = .panic) := by
  refine ⟨?_, ?_, ?_⟩
  · rcases hwf with h | ⟨h1, h2, h3⟩
    · subst h
      exact ⟨_, rfl⟩
    · exact ⟨_, Open_permissive_core path b spare h1 h2 h3⟩
  · intro fb readErr createErr e he
    rw [Open_flags] at he
    by_cases hc : (readErr && createErr) = true
    · rw [if_pos hc] at he
      cases he
      simpa using hc
    · rw [if_neg hc] at he
      exact absurd he (Open_ne_error path fb e)
  · intro fb
    cases h : Open path fb false false with
    | ok db => exact Or.inl ⟨db, rfl⟩
    | error err => exact absurd h (Open_ne_error path fb err)
    | panic => exact Or.inr rfl
    | fuel => exact absurd h (Open_ne_fuel path fb false false)

/-- C8, witness: the empty file, the file of one row "k" with an int32, and
the file `mismatchFile`, whose only row is not sliced and has an offset beyond
the end of the file. -/
theorem Open_total_on_wellformed_witness :
    (∃ db, Open "db" ⟨[], []⟩ false false = .ok db) ∧
    (∃ db, Open "db" ⟨[0, 0, 0, 1] ++ layoutRow [107] TYPE_INT32 0 4 ++ [0, 0, 0, 9], []⟩
      false false = .ok db) ∧
    mismatchFile.length <
      rowAddr (numAt mismatchFile 0) + numAt mismatchFile (rowAddr 0 + 51) ∧
    (∃ db, Open "db" ⟨mismatchFile, []⟩ false false = .ok db) :=
  ⟨(Open_total_on_wellformed "db" [] [] (Or.inl rfl)).1,
    (Open_total_on_wellformed "db" ([0, 0, 0, 1] ++ layoutRow [107] TYPE_INT32 0 4 ++ [0, 0, 0, 9])
      [] (Or.inr ⟨by decide, by decide, by decide⟩)).1,
    by decide,
    (Open_total_on_wellformed "db" mismatchFile [] (Or.inr ⟨by decide, by decide, by decide⟩)).1⟩

end Keyy
